import Mathlib

/-!
# Bootstrap median confidence interval (`cpp_files/bootMedianCI.cpp`)

A shallow embedding of `bootMedianCI_Cpp` and of the Rcpp operations it calls
(`sample`, `na_omit`, `median`, `std::sort`, integer-vector subsetting).

Conventions of the embedding:

* doubles are rationals and the missing value NA is `none`. The functions are
  given in exact arithmetic; where a statement depends on the rounding of the
  double operations, the function is also given with every such operation
  followed by a rounding function `fl`: `IsRounding` states what is used of it,
  and `roundNearestEven 53`, the rounding of doubles (exponent range apart), is
  shown to have these properties;
* C++ `int` is `Int`; statements that depend on it bound the values to the 32-bit
  range;
* R's global random number generator is a stream `draws : Nat → Unif` of the
  successive results of `unif_rand()`, together with the position of the next
  unread draw;
* the loop counter is declared `int i;` without an initial value
  (`for (int i; i < n; i++)`), so its starting value is indeterminate: it is the
  explicit parameter `i0` of the embedding.
-/

namespace BootMedianCI

/-! ## Data model -/

/-- Entry of an R numeric vector: a number, or `none` for the missing value NA. -/
abbrev Value := Option ℚ

/-- Result of one call of `unif_rand()`: a number strictly between 0 and 1. -/
structure Unif where
  val : ℚ
  pos : 0 < val
  lt_one : val < 1

/-- What a call of `bootMedianCI_Cpp` ends with. -/
inductive Outcome
  /-- The two-element vector `ci` is returned. -/
  | ci (lower upper : Value)
  /-- R error raised while allocating `NumericVector medians(n)` with `n < 0`. -/
  | negativeLength
  /-- R error `index error` raised by the bounds check of `medians[idx]`. -/
  | indexError
  deriving DecidableEq

/-- The call stopped with an R error (and so returned nothing). -/
def Outcome.isError (o : Outcome) : Prop :=
  o = Outcome.negativeLength ∨ o = Outcome.indexError

/-- Comparison `a <= b` of two doubles: not true as soon as one side is NA. -/
def Value.le : Value → Value → Prop
  | some p, some q => p ≤ q
  | _, _ => False

/-- Comparison `a < b` of two doubles, the order `std::sort` uses: false as soon
as one side is NA. -/
def Value.lt (a b : Value) : Bool :=
  match a, b with
  | some p, some q => decide (p < q)
  | _, _ => false

/-! ## Rcpp operations used by the function -/

/-- Rcpp sugar `na_omit`: the non-missing entries, in order. -/
def na_omit (x : List Value) : List ℚ := x.reduceOption

/-- Rcpp sugar `sample(x, size, true)` (sampling with replacement, uniform
weights): entry `j` is `x[static_cast<int>(n * unif_rand())]` with `n = x.size()`,
the draws being read from the stream starting at position `pos`. -/
def sample (x : List Value) (size : Nat) (draws : Nat → Unif) (pos : Nat) : List Value :=
  (List.range size).map fun j =>
    (x[(⌊(x.length : ℚ) * (draws (pos + j)).val⌋).toNat]?).join

/-- Rcpp sugar `median` of a vector without missing entries: NA for the empty
vector, the middle order statistic for an odd length, the mean of the two middle
order statistics for an even length. The sum of the two is exact here: it is
neither rounded nor does it overflow. For two equal doubles `v` the double result
is `v` as well, as long as `v + v` does not overflow. -/
def median (x : List ℚ) : Value :=
  if x.length < 1 then none
  else
    let s := x.insertionSort (· ≤ ·)
    let n := x.length / 2
    if x.length % 2 = 1 then s[n]?
    else (s[n]?).bind fun a => (s[n - 1]?).map fun b => (a + b) / 2

/-- In-place `std::sort(medians.begin(), medians.end())` over `operator<` of
double. On a vector without NA (and on one made only of NA) every comparison sort
returns this list; with NA mixed among numbers the C++ result is unspecified and
this is one possible result. -/
def std_sort (v : List Value) : List Value :=
  v.insertionSort fun a b => Value.lt b a = false

/-- Rcpp subsetting `v[idx]` by an integer vector: `check_indices` stops with
`index error` (here `none`) when an index is negative or not below `v.size()`. -/
def subset (v : List Value) : List Int → Option (List Value)
  | [] => some []
  | k :: ks =>
    if k < 0 ∨ (v.length : Int) ≤ k then none
    else
      match v[k.toNat]?, subset v ks with
      | some a, some rest => some (a :: rest)
      | _, _ => none

/-! ## The function -/

/-- Line 22: `int lower = ceil(n * (1 - clevel)/2);`, in exact arithmetic. -/
def lowerIndex (n : Int) (clevel : ℚ) : Int := ⌈(n : ℚ) * (1 - clevel) / 2⌉

/-- Line 23: `int upper = floor(n * (1 - (1 - clevel)/2));`, in exact arithmetic. -/
def upperIndex (n : Int) (clevel : ℚ) : Int := ⌊(n : ℚ) * (1 - (1 - clevel) / 2)⌋

/-- What the statements use of a rounding to nearest with a significand of 53 bits
(exponent range apart): it is monotone on the non-negative numbers, it leaves
unchanged every number `m * 2^e` with `|m| < 2^53`, and its relative error is at
most `2^-53`. -/
structure IsRounding (fl : ℚ → ℚ) : Prop where
  mono : ∀ x y, 0 ≤ x → x ≤ y → fl x ≤ fl y
  fix : ∀ m e : Int, |m| < 2 ^ 53 → fl ((m : ℚ) * 2 ^ e) = (m : ℚ) * 2 ^ e
  err : ∀ x, |fl x - x| ≤ |x| / 2 ^ 53

/-- Line 22 with its double operations rounded: the subtraction, the product and
the division, in the order of the source. -/
def lowerIndexRounded (fl : ℚ → ℚ) (n : Int) (clevel : ℚ) : Int :=
  ⌈fl (fl ((n : ℚ) * fl (1 - clevel)) / 2)⌉

/-- Line 23 with its double operations rounded: the inner subtraction, the
division, the outer subtraction and the product, in the order of the source. -/
def upperIndexRounded (fl : ℚ → ℚ) (n : Int) (clevel : ℚ) : Int :=
  ⌊fl ((n : ℚ) * fl (1 - fl (fl (1 - clevel) / 2)))⌋

/-- Lines 15 and 18, the body of one round: the median of the resample drawn
from the whole of `x` at stream position `pos`, missing entries omitted from the
resample. -/
def roundMedian (x : List Value) (draws : Nat → Unif) (pos : Nat) : Value :=
  median (na_omit (sample x x.length draws pos))

/-- Lines 11 to 19, the loop `for (int i; i < n; i++)` from the current counter
`i`, stream position `pos` and contents of `medians`. Every round reads
`x.size()` draws. The first argument bounds the number of rounds; the function is
called with `(n - i).toNat`, the exact number of rounds left. A round whose counter
`i` is negative assigns `medians[i]` outside the vector (undefined behaviour in
C++): the write does not reach an entry of `medians`, which the embedding leaves
unchanged, and the loop goes on. -/
def fillMedians (x : List Value) (draws : Nat → Unif) (n : Int) :
    Nat → Int → Nat → List Value → List Value
  | 0, _, _, medians => medians
  | fuel + 1, i, pos, medians =>
    if i < n then
      fillMedians x draws n fuel (i + 1) (pos + x.length)
        (if i < 0 then medians else medians.set i.toNat (roundMedian x draws pos))
    else medians

/-- The exported function `bootMedianCI_Cpp(x, n, clevel)`, in exact arithmetic.
`i0` is the indeterminate starting value of the loop counter and `draws` the stream
of uniform draws the generator delivers. -/
def bootMedianCI_Cpp (x : List Value) (n : Int) (clevel : ℚ) (i0 : Int)
    (draws : Nat → Unif) : Outcome :=
  if n < 0 then Outcome.negativeLength
  else
    let medians := fillMedians x draws n (n - i0).toNat i0 0 (List.replicate n.toNat (some 0))
    let lower := lowerIndex n clevel
    let upper := upperIndex n clevel
    match subset (std_sort medians) [lower, upper] with
    | some [a, b] => Outcome.ci a b
    | _ => Outcome.indexError

/-- The exported function `bootMedianCI_Cpp(x, n, clevel)` with the double
operations of lines 22 and 23 rounded by `fl`. With `fl = id` it is
`bootMedianCI_Cpp`. -/
def bootMedianCI_CppRounded (fl : ℚ → ℚ) (x : List Value) (n : Int) (clevel : ℚ) (i0 : Int)
    (draws : Nat → Unif) : Outcome :=
  if n < 0 then Outcome.negativeLength
  else
    let medians := fillMedians x draws n (n - i0).toNat i0 0 (List.replicate n.toNat (some 0))
    let lower := lowerIndexRounded fl n clevel
    let upper := upperIndexRounded fl n clevel
    match subset (std_sort medians) [lower, upper] with
    | some [a, b] => Outcome.ci a b
    | _ => Outcome.indexError

/-! ## Rounding of doubles -/

/-- The integer part of the binary logarithm of `n`, for `n ≤ 2^fuel`. -/
def log2Fuel : Nat → Nat → Nat
  | 0, _ => 0
  | fuel + 1, n => if n < 2 then 0 else 1 + log2Fuel fuel (n / 2)

/-- The exponent `e` of a non-zero `x`: `2^e ≤ |x| < 2^(e+1)`. -/
def floorLog2 (x : ℚ) : Int :=
  let e0 : Int := (log2Fuel x.num.natAbs x.num.natAbs : Int) - (log2Fuel x.den x.den : Int)
  if (2 : ℚ) ^ e0 ≤ |x| then e0 else e0 - 1

/-- The integer nearest to `m`, the even one of the two when `m` is half-way. -/
def roundHalfEven (m : ℚ) : Int :=
  let f := ⌊m⌋
  if m - f < 1 / 2 then f
  else if 1 / 2 < m - f then f + 1
  else if f % 2 = 0 then f else f + 1

/-- Rounding to the nearest number with a significand of `p` bits, ties to even,
without bound on the exponent: for `p = 53` the rounding of a double operation
whose result neither overflows nor is subnormal, for `p = 64` that of an x87
`long double` operation. -/
def roundNearestEven (p : Nat) (x : ℚ) : ℚ :=
  if x = 0 then 0
  else
    let ulp : ℚ := 2 ^ (floorLog2 x - ((p : Int) - 1))
    (roundHalfEven (x / ulp) : ℚ) * ulp

/-! ## Specification-side definitions -/

/-- The `n` resample medians of the specification (algorithm steps 1 and 2):
one median per round, round `k` reading the draws from position `k * x.size()`. -/
def resampleMedians (x : List Value) (n : Int) (draws : Nat → Unif) : List Value :=
  (List.range n.toNat).map fun k => roundMedian x draws (k * x.length)

/-! ## Concrete draws used in the examples -/

/-- The draw 1/10. -/
def u10 : Unif := ⟨1 / 10, by norm_num, by norm_num⟩

/-- The draw 1/2. -/
def u50 : Unif := ⟨1 / 2, by norm_num, by norm_num⟩

/-- The draw 9/10. -/
def u90 : Unif := ⟨9 / 10, by norm_num, by norm_num⟩

/-- A generator that always delivers 1/2. -/
def constDraws : Nat → Unif := fun _ => u50

/-- A generator delivering 1/10 three times, then 1/2 three times, then 9/10. -/
def stepDraws : Nat → Unif := fun k => if k < 3 then u10 else if k < 6 then u50 else u90

end BootMedianCI

/-!
# The other snippets of `cpp_files`

The mean functions (`myMeanCppIterator.cpp`, `myMeanCppIterator2.cpp`,
`myMeanCppRangeBasedLoop.cpp`, `myMeanCppIter3accum.cpp`, `myMeanCppIter4inner.cpp`,
`myMeanNACpp2.cpp`), `lmFitMetricsCpp.cpp`, `colCVsCpp_list.cpp` and
`colCVsCpp_df2.cpp`.

A double that is not a finite number (NA, the NaN of `0/0`, the infinity of a
division by zero) is `none`; inputs hold finite numbers or NA. The functions are
given in exact arithmetic; `myMeanNACpp2` and `myMeanNACpp2Sugar` are also given
with their operations rounded. The functions `sqrt` and `log` of the C library have
no exact rational model: the functions that call them take them as parameters.
-/

namespace RcppSnippets

open BootMedianCI

/-! ## Arithmetic of doubles -/

/-- Sum `a + b` of two doubles. -/
def vadd (a b : Value) : Value := a.bind fun p => b.map fun q => p + q

/-- Difference `a - b` of two doubles. -/
def vsub (a b : Value) : Value := a.bind fun p => b.map fun q => p - q

/-- Product `a * b` of two doubles. -/
def vmul (a b : Value) : Value := a.bind fun p => b.map fun q => p * q

/-- Quotient `a / b` of two doubles: not a finite number when `b` is zero. -/
def vdiv (a b : Value) : Value :=
  a.bind fun p => b.bind fun q => if q = 0 then none else some (p / q)

/-- Absolute value of a double. -/
def vabs (a : Value) : Value := a.map fun p => |p|

/-- Rcpp sugar `pow(v, 2)` on one entry. -/
def vsq (a : Value) : Value := vmul a a

/-- The numbers of a vector when all its entries are finite numbers. -/
def finiteEntries : List Value → Option (List ℚ)
  | [] => some []
  | none :: _ => none
  | some q :: t => (finiteEntries t).map fun l => q :: l

/-- Rcpp sugar `sum` of a numeric vector: the entries are added from left to right,
starting from 0. -/
def sum (x : List Value) : Value := x.foldl vadd (some 0)

/-- Rcpp sugar `mean` of a vector of finite numbers: `s` is the sum divided by the
size `n`; when `s` is finite a second pass adds the mean of the deviations from
`s`. -/
def meanFinite (x : List ℚ) : Value :=
  (vdiv (some (x.foldl (· + ·) 0)) (some (x.length : ℚ))).bind fun s =>
    vadd (some s) (vdiv (some ((x.map fun v => v - s).foldl (· + ·) 0)) (some (x.length : ℚ)))

/-- Rcpp sugar `mean` of a numeric vector: not a finite number as soon as an entry
is not. -/
def mean (x : List Value) : Value := (finiteEntries x).bind meanFinite

/-- Rcpp sugar `median` of a numeric vector: NA as soon as an entry is missing. -/
def medianNA (x : List Value) : Value := (finiteEntries x).bind median

/-! ## The mean functions -/

/-- The function `myMeanCppIterator`: `sum += *i` over the iterator range, then
`sum/x.size()`. -/
def myMeanCppIterator (x : List Value) : Value :=
  vdiv (x.foldl (fun sum v => vadd sum v) (some 0)) (some (x.length : ℚ))

/-- The function `myMeanCppIterator2`: the same loop against the constant
`x_end`. -/
def myMeanCppIterator2 (x : List Value) : Value :=
  let x_end := x.length
  vdiv ((x.take x_end).foldl (fun sum v => vadd sum v) (some 0)) (some (x.length : ℚ))

/-- The function `myMeanCppRangeBasedLoop`: `sum += x_val` for every `x_val` of
`x`, then `sum/x.size()`. -/
def myMeanCppRangeBasedLoop (x : List Value) : Value :=
  vdiv (x.foldl (fun sum x_val => vadd sum x_val) (some 0)) (some (x.length : ℚ))

/-- The function `myMeanCppIter3accum`: `std::accumulate` over `na_omit(x)` from
`0.0`, divided by the size of `na_omit(x)`. -/
def myMeanCppIter3accum (x : List Value) : Value :=
  let x_nonmiss := na_omit x
  vdiv (some (x_nonmiss.foldl (· + ·) 0)) (some (x_nonmiss.length : ℚ))

/-- The function `myMeanCppIter4inner`: `std::inner_product` of `na_omit(x)` with a
vector of weights all equal to `1.0/n`, from `0.0`. -/
def myMeanCppIter4inner (x : List Value) : Value :=
  let x_nonmiss := na_omit x
  let n := x_nonmiss.length
  let x_weights := List.replicate n (vdiv (some 1) (some (n : ℚ)))
  (List.zip x_nonmiss x_weights).foldl (fun acc p => vadd acc (vmul (some p.1) p.2)) (some 0)

/-- The function `myMeanNACpp2`, in exact arithmetic: the loop counts the
non-missing entries in `nonmiss` and adds them in `total`; the state of the fold is
`(nonmiss, total)`. The result is `total / nonmiss`. -/
def myMeanNACpp2 (x : List Value) : Value :=
  let st := x.foldl
    (fun (st : Nat × ℚ) v =>
      match v with
      | none => st
      | some q => (st.1 + 1, st.2 + q))
    (0, 0)
  vdiv (some st.2) (some (st.1 : ℚ))

/-- The function `myMeanNACpp2Sugar`, in exact arithmetic: `mean(na_omit(x))`. -/
def myMeanNACpp2Sugar (x : List Value) : Value :=
  mean ((na_omit x).map some)

/-- The function `myMeanNACpp2` with its double operations rounded by `rd`: every
addition `total += x[i]` and the final division. -/
def myMeanNACpp2Rounded (rd : ℚ → ℚ) (x : List Value) : Value :=
  let st := x.foldl
    (fun (st : Nat × ℚ) v =>
      match v with
      | none => st
      | some q => (st.1 + 1, rd (st.2 + q)))
    (0, 0)
  (vdiv (some st.2) (some (st.1 : ℚ))).map rd

/-- Rcpp sugar `mean` of a vector of finite numbers with its operations rounded:
the sum `s`, the division `s /= n`, the second pass `t += input[i] - s` and the
update `s += t/n` are `long double` operations, rounded by `rl`; the result is
converted to double, rounded by `rd`. -/
def meanFiniteRounded (rd rl : ℚ → ℚ) (x : List ℚ) : Value :=
  if x.length = 0 then none
  else
    let n : ℚ := x.length
    let s := rl (x.foldl (fun s v => rl (s + v)) 0 / n)
    let t := x.foldl (fun t v => rl (t + rl (v - s))) 0
    some (rd (rl (s + rl (t / n))))

/-- The function `myMeanNACpp2Sugar` with its operations rounded. -/
def myMeanNACpp2SugarRounded (rd rl : ℚ → ℚ) (x : List Value) : Value :=
  meanFiniteRounded rd rl (na_omit x)

/-- The doubles nearest to 0.1, 0.2 and 0.3, the vector `c(0.1, 0.2, 0.3)`. -/
def tenths : List Value :=
  [some (roundNearestEven 53 (1 / 10)), some (roundNearestEven 53 (2 / 10)),
    some (roundNearestEven 53 (3 / 10))]

/-- The vector of the R block of `myMeanNACpp2.cpp`, with fixed numbers in place of
`rnorm(10)`: ten entries, the third and the fifth missing. -/
def x_val : List Value :=
  [some 1, some (-2), none, some 4, none, some (1 / 2), some 7, some (-3), some 9, some 10]

/-! ## Fit metrics of a linear model (`lmFitMetricsCpp.cpp`) -/

/-- An element of an R list, as far as the function tells them apart: a vector
that converts to `NumericVector`, or a vector that does not (a character vector). -/
inductive RObject
  | numeric (v : List Value)
  | character (v : List String)

/-- An R list: its `class` attribute and its named elements in order. -/
structure RList where
  classAttr : List String
  elems : List (String × RObject)

/-- What a call of `lmFitMetricsCpp` ends with. -/
inductive LmOutcome
  /-- A data frame of one row is returned: the column names with their values. -/
  | table (cols : List (String × Value))
  /-- The call stopped in `stop(msg)`, an R error carrying the message `msg`. -/
  | stop (msg : String)
  /-- The call stopped with the R error Rcpp raises when the list has no element
  called `name` (index out of bounds) or when that element does not convert to
  `NumericVector` (not compatible). -/
  | accessError (name : String)
  /-- The vectors `fitted.values` and `residuals` differ in length and a sugar
  expression read past the end of the shorter one: undefined behaviour. -/
  | outOfBoundsRead
  deriving DecidableEq

/-- The test `model_lm.inherits(str)`: the class attribute contains `str`. -/
def RList.inherits (l : RList) (str : String) : Bool := l.classAttr.contains str

/-- The access `model_lm[name]` converted to `NumericVector`: the first element
with that name; `none`, an R error, when there is no such element or when it is not
numeric. -/
def RList.numericAt (l : RList) (name : String) : Option (List Value) :=
  match l.elems.find? fun e => e.1 == name with
  | none => none
  | some (_, RObject.numeric v) => some v
  | some (_, RObject.character _) => none

/-- The body of `lmFitMetricsCpp` from line 22 on, for two vectors of one length. -/
def fitMetrics (sqrt log : ℚ → Value) (forecast resid : List Value) : List (String × Value) :=
  let real := List.zipWith vadd forecast resid
  let absresid := resid.map vabs
  let MSE := mean (resid.map vsq)
  let RMSE := MSE.bind sqrt
  let MAE := mean absresid
  let MAPE := mean (List.zipWith vdiv absresid real)
  let AMAPE := mean (List.zipWith vdiv absresid (List.zipWith vadd real forecast))
  let MedAE := medianNA absresid
  let MSLE := mean ((List.zipWith vsub
    (real.map fun r => (vadd (some 1) r).bind log)
    (forecast.map fun f => (vadd (some 1) f).bind log)).map vsq)
  let TSS := sum ((real.map fun r => vsub r (mean real)).map vsq)
  let RSS := sum ((List.zipWith vsub forecast real).map vsq)
  let R2 := vsub (some 1) (vdiv RSS TSS)
  [("MSE", MSE), ("RMSE", RMSE), ("MAE", MAE), ("MAPE", MAPE), ("AMAPE", AMAPE),
    ("MedAE", MedAE), ("MSLE", MSLE), ("R2", R2)]

/-- The exported function `lmFitMetricsCpp(model_lm)`. -/
def lmFitMetricsCpp (sqrt log : ℚ → Value) (model_lm : RList) : LmOutcome :=
  if ! model_lm.inherits "lm" then LmOutcome.stop "The argument must be a lm() model result."
  else
    match model_lm.numericAt "fitted.values" with
    | none => LmOutcome.accessError "fitted.values"
    | some forecast =>
      match model_lm.numericAt "residuals" with
      | none => LmOutcome.accessError "residuals"
      | some resid =>
        if forecast.length ≠ resid.length then LmOutcome.outOfBoundsRead
        else LmOutcome.table (fitMetrics sqrt log forecast resid)

/-- The column `name` of a returned table. -/
def LmOutcome.column (o : LmOutcome) (name : String) : Option Value :=
  match o with
  | LmOutcome.table cols => (cols.find? fun c => c.1 == name).map fun c => c.2
  | _ => none

/-- Mean absolute percentage error, the mean over `i` of `|resid_i / real_i|` with
`real_i = fitted_i + resid_i`. -/
def meanAbsolutePercentageError (forecast resid : List Value) : Value :=
  mean (List.zipWith (fun f r => vabs (vdiv r (vadd f r))) forecast resid)

/-- An exact square root: the root of a square of a rational, no value otherwise. -/
def exactSqrt (q : ℚ) : Value :=
  if Rat.sqrt q * Rat.sqrt q = q then some (Rat.sqrt q) else none

/-- An exact logarithm: 0 at 1, no value otherwise. -/
def exactLog (q : ℚ) : Value := if q = 1 then some 0 else none

/-- A model of class `lm` with one observation: fitted value -2, residual 1. -/
def negativeModel : RList :=
  ⟨["lm"], [("fitted.values", RObject.numeric [some (-2)]),
    ("residuals", RObject.numeric [some 1])]⟩

/-- A model of class `lm` with two observations: fitted values 0 and 3, residuals
1 and -1. -/
def smallModel : RList :=
  ⟨["lm"], [("coefficients", RObject.numeric [some 1]),
    ("residuals", RObject.numeric [some 1, some (-1)]),
    ("fitted.values", RObject.numeric [some 0, some 3])]⟩

/-- A list of class `lm` whose only element is called `coefficients`. -/
def hollowModel : RList := ⟨["lm"], [("coefficients", RObject.numeric [some 1])]⟩

/-- A list that is not of class `lm`. -/
def plainList : RList := ⟨[], [("fitted.values", RObject.numeric [some 1]),
  ("residuals", RObject.numeric [some 1])]⟩

/-! ## Coefficients of variation of the columns (`colCVsCpp_list.cpp`, `colCVsCpp_df2.cpp`) -/

/-- A numeric matrix of finite numbers: the number of rows and the columns, each
with that many entries. -/
structure NumericMatrix where
  nrow : Nat
  cols : List (List ℚ)
  wf : ∀ c ∈ cols, c.length = nrow

/-- Rcpp sugar `colMeans` on one column: the sum of the column divided by the
number of rows. -/
def colMean (n : Nat) (col : List ℚ) : Value :=
  vdiv (some (col.foldl (· + ·) 0)) (some (n : ℚ))

/-- The argument of `sqrt` on line 17 for one column:
`double(n)/(n-1) * (means_x2 - pow(means_x, 2.0))`, where `means_x2` is the mean of
the squared column. -/
def sdsRadicand (n : Nat) (col : List ℚ) : Value :=
  vmul (vdiv (some (n : ℚ)) (some ((n : ℚ) - 1)))
    (vsub (colMean n (col.map fun v => v * v)) (vsq (colMean n col)))

/-- Line 17 for one column: `sds = sqrt(...)`. -/
def sdsEntry (sqrt : ℚ → Value) (n : Nat) (col : List ℚ) : Value :=
  (sdsRadicand n col).bind sqrt

/-- Line 18 for one column: `colCVs = 100 * sds/means_x`. -/
def cvEntry (sqrt : ℚ → Value) (n : Nat) (col : List ℚ) : Value :=
  vdiv (vmul (some 100) (sdsEntry sqrt n col)) (colMean n col)

/-- The named vectors returned by `colCVsCpp_list`. -/
structure ColCVs where
  means : List Value
  sds : List Value
  cvs : List Value

/-- The exported function `colCVsCpp_list(x)`. -/
def colCVsCpp_list (sqrt : ℚ → Value) (x : NumericMatrix) : ColCVs :=
  let n := x.nrow
  { means := x.cols.map (colMean n)
    sds := x.cols.map (sdsEntry sqrt n)
    cvs := x.cols.map (cvEntry sqrt n) }

/-- The exported function `colCVsCpp_df2(x)`: the columns `means`, `sds` and `cvs`
of the returned data frame, which hold copies made by `clone`. The fourth column,
`cvs2`, shares its storage with the vector `colCVs` overwritten on line 28 and is
not part of the model. -/
def colCVsCpp_df2 (sqrt : ℚ → Value) (x : NumericMatrix) : ColCVs :=
  let n := x.nrow
  { means := x.cols.map (colMean n)
    sds := x.cols.map (sdsEntry sqrt n)
    cvs := x.cols.map (cvEntry sqrt n) }

/-- Unbiased sample variance of a column: the sum of the squared deviations from
the mean, divided by the number of entries minus one. -/
def sampleVariance (col : List ℚ) : ℚ :=
  (col.map fun v => (v - col.sum / col.length) ^ 2).sum / ((col.length : ℚ) - 1)

/-- A matrix with three rows and two columns, `(0, 1, 2)` and `(2, 2, 8)`. -/
def smallMatrix : NumericMatrix := ⟨3, [[0, 1, 2], [2, 2, 8]], by decide⟩

end RcppSnippets

namespace BootMedianCI

/-! ## The index formula -/

theorem lowerIndex_pos (n : Int) (c : ℚ) (hn : 1 ≤ n) (hc : c < 1) :
    1 ≤ lowerIndex n c := by
  have hq : (1 : ℚ) ≤ (n : ℚ) := by exact_mod_cast hn
  have h : 0 < (n : ℚ) * (1 - c) / 2 := by
    have : 0 < (n : ℚ) * (1 - c) := mul_pos (by linarith) (by linarith)
    linarith
  have := Int.ceil_pos.mpr h
  unfold lowerIndex
  omega

theorem lowerIndex_le (n : Int) (c : ℚ) (hn : 2 ≤ n) (hc : 0 < c) :
    lowerIndex n c ≤ n - 1 := by
  have hq : (2 : ℚ) ≤ (n : ℚ) := by exact_mod_cast hn
  unfold lowerIndex
  rw [Int.ceil_le]
  push_cast
  nlinarith

theorem upperIndex_nonneg (n : Int) (c : ℚ) (hn : 0 ≤ n) (hc : -1 ≤ c) :
    0 ≤ upperIndex n c := by
  have hq : (0 : ℚ) ≤ (n : ℚ) := by exact_mod_cast hn
  unfold upperIndex
  rw [Int.floor_nonneg]
  apply mul_nonneg hq
  linarith

theorem upperIndex_le (n : Int) (c : ℚ) (hn : 1 ≤ n) (hc : c < 1) :
    upperIndex n c ≤ n - 1 := by
  have hq : (1 : ℚ) ≤ (n : ℚ) := by exact_mod_cast hn
  have h : upperIndex n c < n := by
    unfold upperIndex
    rw [Int.floor_lt]
    nlinarith
  omega

theorem upperIndex_ge (n : Int) (c : ℚ) (hn : 1 ≤ n) (hc : 1 ≤ c) :
    n ≤ upperIndex n c := by
  have hq : (1 : ℚ) ≤ (n : ℚ) := by exact_mod_cast hn
  unfold upperIndex
  rw [Int.le_floor]
  nlinarith

theorem lowerIndex_le_upperIndex (n : Int) (c : ℚ) (h : 1 ≤ (n : ℚ) * c) :
    lowerIndex n c ≤ upperIndex n c := by
  unfold lowerIndex upperIndex
  rw [Int.le_floor]
  have h1 := Int.ceil_lt_add_one ((n : ℚ) * (1 - c) / 2)
  linarith

/-! ## The Rcpp operations -/

theorem drawIndex_lt (len : Nat) (u : Unif) (h : 0 < len) :
    (⌊(len : ℚ) * u.val⌋).toNat < len := by
  have hq : (0 : ℚ) < (len : ℚ) := by exact_mod_cast h
  have h0 : 0 ≤ ⌊(len : ℚ) * u.val⌋ :=
    Int.floor_nonneg.mpr (mul_nonneg hq.le u.pos.le)
  have h1 : ⌊(len : ℚ) * u.val⌋ < (len : Int) := by
    rw [Int.floor_lt]
    have := u.lt_one
    push_cast
    nlinarith
  omega

theorem length_sample (x : List Value) (size : Nat) (draws : Nat → Unif) (pos : Nat) :
    (sample x size draws pos).length = size := by
  simp [sample]

theorem mem_of_mem_sample (x : List Value) (size : Nat) (draws : Nat → Unif) (pos : Nat)
    (e : Value) (he : e ∈ sample x size draws pos) : e = none ∨ e ∈ x := by
  simp only [sample, List.mem_map, List.mem_range] at he
  obtain ⟨j, _, rfl⟩ := he
  cases hx : x[(⌊(x.length : ℚ) * (draws (pos + j)).val⌋).toNat]? with
  | none => left; rfl
  | some w =>
    right
    simpa using List.getElem?_mem hx

theorem mem_of_mem_sample_self (x : List Value) (draws : Nat → Unif) (pos : Nat)
    (e : Value) (he : e ∈ sample x x.length draws pos) : e ∈ x := by
  simp only [sample, List.mem_map, List.mem_range] at he
  obtain ⟨j, hj, rfl⟩ := he
  have hlt := drawIndex_lt x.length (draws (pos + j)) (by omega)
  rw [List.getElem?_eq_getElem hlt]
  simp

theorem median_nil : median [] = none := by
  simp [median]

theorem median_const (l : List ℚ) (v : ℚ) (hne : l ≠ []) (hall : ∀ e ∈ l, e = v) :
    median l = some v := by
  have hpos : 0 < l.length := List.length_pos.mpr hne
  have hs : ∀ k, k < l.length → (l.insertionSort (· ≤ ·))[k]? = some v := by
    intro k hk
    have hk2 : k < (l.insertionSort (· ≤ ·)).length := by
      rw [List.length_insertionSort]; exact hk
    rw [List.getElem?_eq_getElem hk2]
    have hm : (l.insertionSort (· ≤ ·))[k] ∈ l :=
      (List.mem_insertionSort (· ≤ ·)).mp (List.getElem_mem _)
    rw [hall _ hm]
  unfold median
  rw [if_neg (by omega)]
  simp only
  rw [hs (l.length / 2) (by omega), hs (l.length / 2 - 1) (by omega)]
  split_ifs <;> simp

theorem median_isSome (l : List ℚ) (hne : l ≠ []) : ∃ q, median l = some q := by
  have hpos : 0 < l.length := List.length_pos.mpr hne
  have hs : ∀ k, k < l.length → ∃ q, (l.insertionSort (· ≤ ·))[k]? = some q := by
    intro k hk
    have hk2 : k < (l.insertionSort (· ≤ ·)).length := by
      rw [List.length_insertionSort]; exact hk
    exact ⟨_, List.getElem?_eq_getElem hk2⟩
  obtain ⟨a, ha⟩ := hs (l.length / 2) (by omega)
  obtain ⟨b, hb⟩ := hs (l.length / 2 - 1) (by omega)
  unfold median
  rw [if_neg (by omega)]
  simp only
  rw [ha, hb]
  split_ifs
  · exact ⟨a, rfl⟩
  · exact ⟨(a + b) / 2, rfl⟩

theorem na_omit_eq_nil (x : List Value) (h : ∀ v ∈ x, v = none) : na_omit x = [] := by
  induction x with
  | nil => rfl
  | cons a t ih =>
    have ha : a = none := h a (List.mem_cons_self _ _)
    subst ha
    have := ih fun v hv => h v (List.mem_cons_of_mem _ hv)
    simpa [na_omit, List.reduceOption_cons_of_none] using this

theorem na_omit_of_forall_some (x : List Value) (h : ∀ v ∈ x, v ≠ none) :
    (na_omit x).length = x.length ∧ (na_omit x).map some = x := by
  induction x with
  | nil => simp [na_omit]
  | cons a t ih =>
    have ih2 := ih fun v hv => h v (List.mem_cons_of_mem _ hv)
    cases a with
    | none => exact absurd rfl (h none (List.mem_cons_self _ _))
    | some q =>
      simp only [na_omit] at ih2 ⊢
      rw [List.reduceOption_cons_of_some]
      simp [ih2.1, ih2.2]

theorem std_sort_perm (v : List Value) : (std_sort v).Perm v :=
  List.perm_insertionSort _ v

theorem length_std_sort (v : List Value) : (std_sort v).length = v.length :=
  List.length_insertionSort _ v

theorem mem_std_sort (v : List Value) (a : Value) : a ∈ std_sort v ↔ a ∈ v :=
  List.mem_insertionSort _

theorem std_sort_map_some (l : List ℚ) :
    std_sort (l.map some) = (l.insertionSort (· ≤ ·)).map some := by
  unfold std_sort
  symm
  apply List.map_insertionSort
  intro a _ b _
  simp [Value.lt]

theorem std_sort_sorted (l : List ℚ) (i j : Nat) (a b : Value) (hij : i ≤ j)
    (ha : (std_sort (l.map some))[i]? = some a) (hb : (std_sort (l.map some))[j]? = some b) :
    Value.le a b := by
  rw [std_sort_map_some] at ha hb
  rw [List.getElem?_map] at ha hb
  have hsorted : (l.insertionSort (· ≤ ·)).Sorted (· ≤ ·) := List.sorted_insertionSort _ l
  cases hp : (l.insertionSort (· ≤ ·))[i]? with
  | none => simp [hp] at ha
  | some p =>
    cases hq : (l.insertionSort (· ≤ ·))[j]? with
    | none => simp [hq] at hb
    | some q =>
      simp only [hp, hq, Option.map_some', Option.some.injEq] at ha hb
      subst ha hb
      obtain ⟨hi, rfl⟩ := List.getElem?_eq_some_iff.mp hp
      obtain ⟨hj, rfl⟩ := List.getElem?_eq_some_iff.mp hq
      have := hsorted.rel_get_of_le (show (⟨i, hi⟩ : Fin _) ≤ ⟨j, hj⟩ from hij)
      simpa [Value.le] using this

theorem subset_pair (v : List Value) (lo hi : Int) (a b : Value) :
    subset v [lo, hi] = some [a, b] ↔
      (0 ≤ lo ∧ lo < v.length ∧ 0 ≤ hi ∧ hi < v.length) ∧
        v[lo.toNat]? = some a ∧ v[hi.toNat]? = some b := by
  simp only [subset]
  by_cases h1 : lo < 0 ∨ (v.length : Int) ≤ lo
  · rw [if_pos h1]
    constructor
    · intro h; cases h
    · rintro ⟨⟨_, _, _, _⟩, _⟩; omega
  · rw [if_neg h1]
    by_cases h2 : hi < 0 ∨ (v.length : Int) ≤ hi
    · rw [if_pos h2]
      constructor
      · intro h
        cases hx : v[lo.toNat]? <;> simp [hx] at h
      · rintro ⟨⟨_, _, _, _⟩, _⟩; omega
    · rw [if_neg h2]
      have hlo : lo.toNat < v.length := by omega
      have hhi : hi.toNat < v.length := by omega
      rw [List.getElem?_eq_getElem hlo, List.getElem?_eq_getElem hhi]
      simp only [Option.some.injEq, List.cons.injEq, and_true]
      constructor
      · rintro ⟨h3, h4⟩
        exact ⟨⟨by omega, by omega, by omega, by omega⟩, h3, h4⟩
      · rintro ⟨_, h3, h4⟩
        exact ⟨h3, h4⟩

theorem fillMedians_from (x : List Value) (draws : Nat → Unif) (n : Int) :
    ∀ (fuel i pos : Nat) (medians : List Value), medians.length = i + fuel →
      (i : Int) + fuel = n →
      fillMedians x draws n fuel i pos medians =
        medians.take i ++
          (List.range fuel).map fun k => roundMedian x draws (pos + k * x.length) := by
  intro fuel
  induction fuel with
  | zero =>
    intro i pos medians hlen _
    have : i = medians.length := by omega
    subst this
    simp [fillMedians]
  | succ f ih =>
    intro i pos medians hlen hn
    have h1 : (i : Int) < n := by omega
    have h2 : ¬ ((i : Int) < 0) := by omega
    have hi : i < medians.length := by omega
    rw [fillMedians, if_pos h1, if_neg h2]
    have hcast : ((i : Int) + 1) = ((i + 1 : Nat) : Int) := by push_cast; ring
    rw [hcast, Int.toNat_ofNat, ih (i + 1) _ _ (by simp; omega) (by push_cast; omega)]
    have ht : (medians.set i (roundMedian x draws pos)).take i = medians.take i := by
      rw [List.set_take, List.set_eq_of_length_le]
      simp
    have hg : (medians.set i (roundMedian x draws pos))[i]? = some (roundMedian x draws pos) :=
      List.getElem?_set_self hi
    rw [List.take_succ, ht, hg, List.range_succ_eq_map, List.map_cons, List.map_map]
    simp only [Option.toList, List.append_assoc, List.singleton_append, Nat.zero_mul,
      Nat.add_zero]
    congr 2
    apply List.map_congr_left
    intro k _
    simp only [Function.comp, Nat.succ_mul]
    congr 1
    omega

theorem fillMedians_zero (x : List Value) (draws : Nat → Unif) (n : Int) (hn : 0 ≤ n) :
    fillMedians x draws n (n - 0).toNat 0 0 (List.replicate n.toNat (some 0)) =
      resampleMedians x n draws := by
  have h := fillMedians_from x draws n n.toNat 0 0 (List.replicate n.toNat (some 0))
    (by simp) (by simp [Int.toNat_of_nonneg hn])
  simp only [Nat.cast_zero, List.take_zero, List.nil_append, Nat.zero_add] at h
  rw [sub_zero, h]
  rfl

theorem fillMedians_forall (P : Value → Prop) (x : List Value) (draws : Nat → Unif)
    (n : Int) (hP : ∀ pos, P (roundMedian x draws pos)) :
    ∀ (fuel : Nat) (i : Int) (pos : Nat) (medians : List Value),
      (∀ v ∈ medians, P v) →
      (∀ v ∈ fillMedians x draws n fuel i pos medians, P v) ∧
        (fillMedians x draws n fuel i pos medians).length = medians.length := by
  intro fuel
  induction fuel with
  | zero =>
    intro i pos medians hm
    exact ⟨hm, rfl⟩
  | succ f ih =>
    intro i pos medians hm
    rw [fillMedians]
    split_ifs with h1 h2
    · exact ih (i + 1) _ medians hm
    · have := ih (i + 1) (pos + x.length) (medians.set i.toNat (roundMedian x draws pos))
        (fun v hv => by
          rcases List.mem_or_eq_of_mem_set hv with hv | hv
          · exact hm v hv
          · rw [hv]; exact hP pos)
      simpa using this
    · exact ⟨hm, rfl⟩

theorem bootMedianCI_CppRounded_id (x : List Value) (n : Int) (c : ℚ) (i0 : Int)
    (draws : Nat → Unif) :
    bootMedianCI_CppRounded id x n c i0 draws = bootMedianCI_Cpp x n c i0 draws := rfl

theorem bootMedianCI_CppRounded_eq_ci (fl : ℚ → ℚ) (x : List Value) (n : Int) (c : ℚ)
    (i0 : Int) (draws : Nat → Unif) (a b : Value)
    (h : bootMedianCI_CppRounded fl x n c i0 draws = Outcome.ci a b) :
    0 ≤ n ∧
      subset (std_sort (fillMedians x draws n (n - i0).toNat i0 0
        (List.replicate n.toNat (some 0))))
        [lowerIndexRounded fl n c, upperIndexRounded fl n c] = some [a, b] := by
  unfold bootMedianCI_CppRounded at h
  split_ifs at h with hn
  refine ⟨by omega, ?_⟩
  simp only at h
  split at h
  · rename_i a2 b2 hsub
    cases h
    exact hsub
  · cases h

theorem bootMedianCI_CppRounded_of_subset (fl : ℚ → ℚ) (x : List Value) (n : Int) (c : ℚ)
    (i0 : Int) (draws : Nat → Unif) (a b : Value) (hn : 0 ≤ n)
    (hsub : subset (std_sort (fillMedians x draws n (n - i0).toNat i0 0
        (List.replicate n.toNat (some 0))))
      [lowerIndexRounded fl n c, upperIndexRounded fl n c] = some [a, b]) :
    bootMedianCI_CppRounded fl x n c i0 draws = Outcome.ci a b := by
  unfold bootMedianCI_CppRounded
  rw [if_neg (by omega)]
  simp only [hsub]

theorem bootMedianCI_Cpp_eq_ci (x : List Value) (n : Int) (c : ℚ) (i0 : Int)
    (draws : Nat → Unif) (a b : Value) (h : bootMedianCI_Cpp x n c i0 draws = Outcome.ci a b) :
    0 ≤ n ∧
      subset (std_sort (fillMedians x draws n (n - i0).toNat i0 0
        (List.replicate n.toNat (some 0))))
        [lowerIndex n c, upperIndex n c] = some [a, b] :=
  bootMedianCI_CppRounded_eq_ci id x n c i0 draws a b h

theorem length_resampleMedians (x : List Value) (n : Int) (draws : Nat → Unif) :
    (resampleMedians x n draws).length = n.toNat := by
  simp [resampleMedians]

/-- When the loop counter starts at 0, every resample median is the same value `w`
and both indices lie in `[0, n-1]`, the call returns `(w, w)`. -/
theorem bootMedianCI_CppRounded_const_medians (fl : ℚ → ℚ) (x : List Value) (n : Int)
    (c : ℚ) (draws : Nat → Unif) (w : Value) (hn : 0 ≤ n)
    (hlo : 0 ≤ lowerIndexRounded fl n c ∧ lowerIndexRounded fl n c ≤ n - 1)
    (hhi : 0 ≤ upperIndexRounded fl n c ∧ upperIndexRounded fl n c ≤ n - 1)
    (hw : ∀ pos, roundMedian x draws pos = w) :
    bootMedianCI_CppRounded fl x n c 0 draws = Outcome.ci w w := by
  apply bootMedianCI_CppRounded_of_subset fl x n c 0 draws w w hn
  rw [fillMedians_zero x draws n hn]
  have hlen : (std_sort (resampleMedians x n draws)).length = n.toNat := by
    rw [length_std_sort, length_resampleMedians]
  have hall : ∀ v ∈ std_sort (resampleMedians x n draws), v = w := by
    intro v hv
    rw [mem_std_sort] at hv
    simp only [resampleMedians, List.mem_map, List.mem_range] at hv
    obtain ⟨k, _, rfl⟩ := hv
    exact hw _
  have hget : ∀ k : Int, 0 ≤ k → k ≤ n - 1 →
      (std_sort (resampleMedians x n draws))[k.toNat]? = some w := by
    intro k hk0 hk1
    have hk : k.toNat < (std_sort (resampleMedians x n draws)).length := by
      rw [hlen]; omega
    rw [List.getElem?_eq_getElem hk, hall _ (List.getElem_mem _)]
  rw [subset_pair]
  refine ⟨⟨hlo.1, ?_, hhi.1, ?_⟩, hget _ hlo.1 hlo.2, hget _ hhi.1 hhi.2⟩
  · rw [hlen]; omega
  · rw [hlen]; omega

theorem roundMedian_const (x : List Value) (draws : Nat → Unif) (pos : Nat) (v : ℚ)
    (hne : x ≠ []) (hall : ∀ e ∈ x, e = some v) : roundMedian x draws pos = some v := by
  have hr : ∀ e ∈ sample x x.length draws pos, e = some v := fun e he =>
    hall e (mem_of_mem_sample_self x draws pos e he)
  have hsome := na_omit_of_forall_some (sample x x.length draws pos)
    (fun e he => by rw [hr e he]; simp)
  unfold roundMedian
  apply median_const
  · intro hnil
    have hlen := hsome.1
    rw [hnil, length_sample] at hlen
    exact hne (List.length_eq_zero.mp hlen.symm)
  · intro q hq
    have hmem : some q ∈ (na_omit (sample x x.length draws pos)).map some :=
      List.mem_map_of_mem some hq
    rw [hsome.2] at hmem
    simpa using hr _ hmem

theorem roundMedian_all_missing (x : List Value) (draws : Nat → Unif) (pos : Nat)
    (hall : ∀ e ∈ x, e = none) : roundMedian x draws pos = none := by
  unfold roundMedian
  rw [na_omit_eq_nil, median_nil]
  intro e he
  rcases mem_of_mem_sample x x.length draws pos e he with h | h
  · exact h
  · exact hall e h

theorem roundMedian_ne_none (x : List Value) (draws : Nat → Unif) (pos : Nat)
    (hne : x ≠ []) (hall : ∀ e ∈ x, e ≠ none) : roundMedian x draws pos ≠ none := by
  have hsome := na_omit_of_forall_some (sample x x.length draws pos)
    (fun e he => hall e (mem_of_mem_sample_self x draws pos e he))
  have hnn : na_omit (sample x x.length draws pos) ≠ [] := by
    intro hnil
    have hlen := hsome.1
    rw [hnil, length_sample] at hlen
    exact hne (List.length_eq_zero.mp hlen.symm)
  obtain ⟨q, hq⟩ := median_isSome _ hnn
  unfold roundMedian
  rw [hq]
  simp

/-- With a loop counter that starts at 0 the call does what the specification
describes: a returned pair holds the entries at the zero-based positions
`lowerIndex` and `upperIndex` of the sorted vector of the `n` resample medians, and
that vector is a rearrangement of those medians. -/
theorem bootMedianCI_Cpp_from_zero (x : List Value) (n : Int) (c : ℚ) (draws : Nat → Unif)
    (a b : Value) (h : bootMedianCI_Cpp x n c 0 draws = Outcome.ci a b) :
    (std_sort (resampleMedians x n draws)).Perm (resampleMedians x n draws) ∧
      (resampleMedians x n draws).length = n.toNat ∧
      0 ≤ lowerIndex n c ∧ 0 ≤ upperIndex n c ∧
      (std_sort (resampleMedians x n draws))[(lowerIndex n c).toNat]? = some a ∧
      (std_sort (resampleMedians x n draws))[(upperIndex n c).toNat]? = some b := by
  obtain ⟨hn, hsub⟩ := bootMedianCI_Cpp_eq_ci x n c 0 draws a b h
  rw [fillMedians_zero x draws n hn, subset_pair] at hsub
  exact ⟨std_sort_perm _, length_resampleMedians x n draws, hsub.1.1, hsub.1.2.2.1,
    hsub.2.1, hsub.2.2⟩

theorem roundMedian_congr (x : List Value) (d1 d2 : Nat → Unif) (pos : Nat)
    (h : ∀ j, j < x.length → d1 (pos + j) = d2 (pos + j)) :
    roundMedian x d1 pos = roundMedian x d2 pos := by
  unfold roundMedian sample
  congr 2
  apply List.map_congr_left
  intro j hj
  rw [h j (List.mem_range.mp hj)]

theorem fillMedians_congr (x : List Value) (d1 d2 : Nat → Unif) (n : Int) :
    ∀ (fuel : Nat) (i : Int) (pos : Nat) (medians : List Value),
      (∀ k, pos ≤ k → k < pos + fuel * x.length → d1 k = d2 k) →
      fillMedians x d1 n fuel i pos medians = fillMedians x d2 n fuel i pos medians := by
  intro fuel
  induction fuel with
  | zero => intro i pos medians _; rfl
  | succ f ih =>
    intro i pos medians h
    have hr : roundMedian x d1 pos = roundMedian x d2 pos :=
      roundMedian_congr x d1 d2 pos fun j hj =>
        h (pos + j) (by omega) (by rw [Nat.succ_mul]; omega)
    have hrest := ih (i + 1) (pos + x.length)
      (if i < 0 then medians else medians.set i.toNat (roundMedian x d2 pos))
      fun k hk1 hk2 => h k (by omega) (by rw [Nat.succ_mul]; omega)
    rw [fillMedians, fillMedians, hr, hrest]

/-- With the starting value of the loop counter held fixed, the outcome is a
function of the inputs and of the draws the rounds read: two generators that agree
on the first `(n - i0) * x.size()` draws give the same outcome. -/
theorem bootMedianCI_Cpp_congr_draws (x : List Value) (n : Int) (c : ℚ) (i0 : Int)
    (d1 d2 : Nat → Unif) (h : ∀ k, k < (n - i0).toNat * x.length → d1 k = d2 k) :
    bootMedianCI_Cpp x n c i0 d1 = bootMedianCI_Cpp x n c i0 d2 := by
  unfold bootMedianCI_Cpp
  rw [fillMedians_congr x d1 d2 n (n - i0).toNat i0 0 _
    fun k _ hk => h k (by simpa using hk)]

/-! ## The index formula under rounding -/

theorem isRounding_id : IsRounding id :=
  ⟨fun _ _ _ h => h, fun _ _ _ => rfl, fun x => by
    simp only [id, sub_self, abs_zero]
    positivity⟩

theorem IsRounding.int {fl : ℚ → ℚ} (h : IsRounding fl) (k : Int) (hk : |k| < 2 ^ 53) :
    fl (k : ℚ) = k := by
  have := h.fix k 0 hk
  simpa using this

theorem IsRounding.half_int {fl : ℚ → ℚ} (h : IsRounding fl) (k : Int) (hk : |k| < 2 ^ 53) :
    fl ((k : ℚ) / 2) = (k : ℚ) / 2 := by
  have := h.fix k (-1) hk
  have h2 : (k : ℚ) * 2 ^ (-1 : Int) = (k : ℚ) / 2 := by
    rw [zpow_neg, zpow_one, div_eq_mul_inv]
  rwa [h2] at this

theorem IsRounding.pow {fl : ℚ → ℚ} (h : IsRounding fl) (e : Int) :
    fl ((2 : ℚ) ^ e) = (2 : ℚ) ^ e := by
  have := h.fix 1 e (by norm_num)
  simpa using this

theorem IsRounding.zero {fl : ℚ → ℚ} (h : IsRounding fl) : fl 0 = 0 := by
  have := h.int 0 (by norm_num)
  simpa using this

theorem IsRounding.one {fl : ℚ → ℚ} (h : IsRounding fl) : fl 1 = 1 := by
  have := h.int 1 (by norm_num)
  simpa using this

theorem IsRounding.below_one {fl : ℚ → ℚ} (h : IsRounding fl) :
    fl (1 - 1 / 2 ^ 53) = 1 - 1 / 2 ^ 53 := by
  have := h.fix (2 ^ 53 - 1) (-53) (by norm_num)
  have h2 : ((2 ^ 53 - 1 : Int) : ℚ) * 2 ^ (-53 : Int) = 1 - 1 / 2 ^ 53 := by
    rw [zpow_neg]
    norm_num
  rwa [h2] at this

theorem IsRounding.nonpos {fl : ℚ → ℚ} (h : IsRounding fl) {x : ℚ} (hx : x ≤ 0) :
    fl x ≤ 0 := by
  have herr := (abs_le.mp (h.err x)).2
  rw [abs_of_nonpos hx] at herr
  have : -x / 2 ^ 53 ≤ -x := div_le_self (by linarith) (by norm_num)
  linarith

theorem IsRounding.le_of_le {fl : ℚ → ℚ} (h : IsRounding fl) {x b : ℚ} (hb : fl b = b)
    (hb0 : 0 ≤ b) (hx : x ≤ b) : fl x ≤ b := by
  rcases le_total 0 x with h0 | h0
  · exact (h.mono x b h0 hx).trans_eq hb
  · exact (h.nonpos h0).trans hb0

theorem IsRounding.ge_of_ge {fl : ℚ → ℚ} (h : IsRounding fl) {x b : ℚ} (hb : fl b = b)
    (hb0 : 0 ≤ b) (hx : b ≤ x) : b ≤ fl x :=
  hb.symm.le.trans (h.mono b x hb0 hx)

theorem lowerIndexRounded_id (n : Int) (c : ℚ) : lowerIndexRounded id n c = lowerIndex n c :=
  rfl

theorem upperIndexRounded_id (n : Int) (c : ℚ) : upperIndexRounded id n c = upperIndex n c :=
  rfl

/-- The rounded difference `1 - clevel` for `0 < clevel ≤ 1 - 2^-52`. -/
theorem fl_one_sub_bounds {fl : ℚ → ℚ} (h : IsRounding fl) (c : ℚ) (h0 : 0 < c)
    (h1 : c ≤ 1 - 1 / 2 ^ 52) : 1 / 2 ^ 52 ≤ fl (1 - c) ∧ fl (1 - c) ≤ 1 := by
  have hp := h.pow (-52)
  have h2 : (2 : ℚ) ^ (-52 : Int) = 1 / 2 ^ 52 := by
    rw [zpow_neg]; norm_num
  rw [h2] at hp
  exact ⟨h.ge_of_ge hp (by positivity) (by linarith), h.le_of_le h.one (by norm_num) (by linarith)⟩

theorem lowerIndexRounded_bounds {fl : ℚ → ℚ} (h : IsRounding fl) (n : Int) (c : ℚ)
    (hn : 2 ≤ n) (hn2 : n < 2 ^ 31) (h0 : 0 < c) (h1 : c ≤ 1 - 1 / 2 ^ 52) :
    1 ≤ lowerIndexRounded fl n c ∧ lowerIndexRounded fl n c ≤ n - 1 := by
  obtain ⟨ha1, ha2⟩ := fl_one_sub_bounds h c h0 h1
  have hq : (2 : ℚ) ≤ (n : ℚ) := by exact_mod_cast hn
  have hnabs : |n| < 2 ^ 53 := by
    rw [abs_of_nonneg (by omega)]; omega
  have hp52 := h.pow (-52)
  have hp53 := h.pow (-53)
  have e52 : (2 : ℚ) ^ (-52 : Int) = 1 / 2 ^ 52 := by rw [zpow_neg]; norm_num
  have e53 : (2 : ℚ) ^ (-53 : Int) = 1 / 2 ^ 53 := by rw [zpow_neg]; norm_num
  rw [e52] at hp52
  rw [e53] at hp53
  -- the rounded product
  have hb1 : 1 / 2 ^ 52 ≤ fl ((n : ℚ) * fl (1 - c)) := by
    apply h.ge_of_ge hp52 (by positivity)
    have : (0 : ℚ) < 1 / 2 ^ 52 := by positivity
    nlinarith
  have hb2 : fl ((n : ℚ) * fl (1 - c)) ≤ n := by
    apply h.le_of_le (h.int n hnabs) (by linarith)
    nlinarith
  -- the rounded half
  have hc1 : 1 / 2 ^ 53 ≤ fl (fl ((n : ℚ) * fl (1 - c)) / 2) := by
    apply h.ge_of_ge hp53 (by positivity)
    have : (1 : ℚ) / 2 ^ 53 = 1 / 2 ^ 52 / 2 := by norm_num
    rw [this]
    linarith
  have hc2 : fl (fl ((n : ℚ) * fl (1 - c)) / 2) ≤ (n : ℚ) / 2 := by
    apply h.le_of_le (h.half_int n hnabs) (by linarith)
    linarith
  unfold lowerIndexRounded
  constructor
  · have hpos : 0 < fl (fl ((n : ℚ) * fl (1 - c)) / 2) := by
      have : (0 : ℚ) < 1 / 2 ^ 53 := by positivity
      linarith
    have := Int.ceil_pos.mpr hpos
    omega
  · rw [Int.ceil_le]
    push_cast
    linarith

theorem upperIndexRounded_bounds {fl : ℚ → ℚ} (h : IsRounding fl) (n : Int) (c : ℚ)
    (hn : 1 ≤ n) (_hn2 : n < 2 ^ 31) (h0 : 0 < c) (h1 : c ≤ 1 - 1 / 2 ^ 52) :
    0 ≤ upperIndexRounded fl n c ∧ upperIndexRounded fl n c ≤ n - 1 := by
  obtain ⟨ha1, ha2⟩ := fl_one_sub_bounds h c h0 h1
  have hq : (1 : ℚ) ≤ (n : ℚ) := by exact_mod_cast hn
  have hp53 := h.pow (-53)
  have e53 : (2 : ℚ) ^ (-53 : Int) = 1 / 2 ^ 53 := by rw [zpow_neg]; norm_num
  rw [e53] at hp53
  have hhalf : fl (1 / 2) = 1 / 2 := by
    have := h.half_int 1 (by norm_num)
    simpa using this
  -- the rounded half of the difference
  have hb1 : 1 / 2 ^ 53 ≤ fl (fl (1 - c) / 2) := by
    apply h.ge_of_ge hp53 (by positivity)
    have : (1 : ℚ) / 2 ^ 53 = 1 / 2 ^ 52 / 2 := by norm_num
    rw [this]
    linarith
  have hb2 : fl (fl (1 - c) / 2) ≤ 1 / 2 := by
    apply h.le_of_le hhalf (by norm_num)
    linarith
  -- the rounded outer difference
  have hc1 : 1 / 2 ≤ fl (1 - fl (fl (1 - c) / 2)) := by
    apply h.ge_of_ge hhalf (by norm_num)
    linarith
  have hc2 : fl (1 - fl (fl (1 - c) / 2)) ≤ 1 - 1 / 2 ^ 53 := by
    apply h.le_of_le h.below_one (by norm_num)
    linarith
  -- the rounded product
  have hx0 : 0 ≤ (n : ℚ) * fl (1 - fl (fl (1 - c) / 2)) := by
    apply mul_nonneg <;> linarith
  have hd1 : 0 ≤ fl ((n : ℚ) * fl (1 - fl (fl (1 - c) / 2))) :=
    h.ge_of_ge h.zero (le_refl 0) hx0
  have herr := h.err ((n : ℚ) * fl (1 - fl (fl (1 - c) / 2)))
  rw [abs_of_nonneg hx0] at herr
  have herr2 := (abs_le.mp herr).2
  have hd2 : fl ((n : ℚ) * fl (1 - fl (fl (1 - c) / 2))) < n := by
    have hx1 : (n : ℚ) * fl (1 - fl (fl (1 - c) / 2)) ≤ (n : ℚ) * (1 - 1 / 2 ^ 53) :=
      mul_le_mul_of_nonneg_left hc2 (by linarith)
    have hx2 : (n : ℚ) * fl (1 - fl (fl (1 - c) / 2)) / 2 ^ 53 ≤
        (n : ℚ) * (1 - 1 / 2 ^ 53) / 2 ^ 53 :=
      div_le_div_of_nonneg_right hx1 (by positivity)
    have hx3 : (n : ℚ) * (1 - 1 / 2 ^ 53) + (n : ℚ) * (1 - 1 / 2 ^ 53) / 2 ^ 53 < n := by
      have : (n : ℚ) * (1 - 1 / 2 ^ 53) + (n : ℚ) * (1 - 1 / 2 ^ 53) / 2 ^ 53 =
          (n : ℚ) * (1 - 1 / 2 ^ 106) := by
        field_simp
        ring
      rw [this]
      have : (0 : ℚ) < 1 / 2 ^ 106 := by positivity
      nlinarith
    linarith
  unfold upperIndexRounded
  constructor
  · exact Int.floor_nonneg.mpr hd1
  · have : ⌊fl ((n : ℚ) * fl (1 - fl (fl (1 - c) / 2)))⌋ < n := by
      rw [Int.floor_lt]
      exact hd2
    omega

theorem IsRounding.abs_le {fl : ℚ → ℚ} (h : IsRounding fl) {x B : ℚ} (hx : |x| ≤ B) :
    |fl x| ≤ B * (1 + 1 / 2 ^ 53) := by
  have he := h.err x
  have h1 : |fl x| ≤ |fl x - x| + |x| := by
    have := abs_add (fl x - x) x
    simpa using this
  have h2 : |x| / 2 ^ 53 ≤ B / 2 ^ 53 := div_le_div_of_nonneg_right hx (by positivity)
  have h3 : B * (1 + 1 / 2 ^ 53) = B / 2 ^ 53 + B := by ring
  rw [h3]
  linarith

theorem log2Fuel_spec : ∀ (fuel n : Nat), 1 ≤ n → n ≤ fuel →
    2 ^ log2Fuel fuel n ≤ n ∧ n < 2 ^ (log2Fuel fuel n + 1) := by
  intro fuel
  induction fuel with
  | zero => intro n h1 h2; omega
  | succ f ih =>
    intro n h1 h2
    rw [log2Fuel]
    split_ifs with h
    · simp; omega
    · obtain ⟨ih1, ih2⟩ := ih (n / 2) (by omega) (by omega)
      rw [pow_succ] at ih2
      rw [Nat.add_comm 1, pow_succ, pow_succ, pow_succ]
      generalize 2 ^ log2Fuel f (n / 2) = a at ih1 ih2 ⊢
      omega

theorem floorLog2_spec (x : ℚ) (hx : x ≠ 0) :
    (2 : ℚ) ^ floorLog2 x ≤ |x| ∧ |x| < (2 : ℚ) ^ (floorLog2 x + 1) := by
  have hN : 1 ≤ x.num.natAbs := by
    have : x.num ≠ 0 := Rat.num_ne_zero.mpr hx
    omega
  have hD : 1 ≤ x.den := x.den_pos
  obtain ⟨a1, a2⟩ := log2Fuel_spec x.num.natAbs x.num.natAbs hN (le_refl _)
  obtain ⟨b1, b2⟩ := log2Fuel_spec x.den x.den hD (le_refl _)
  have habs : |x| = (x.num.natAbs : ℚ) / (x.den : ℚ) := by
    conv_lhs => rw [← Rat.num_div_den x]
    rw [abs_div, Nat.abs_cast, Nat.cast_natAbs, Int.cast_abs]
  have hDq : (0 : ℚ) < (x.den : ℚ) := by exact_mod_cast hD
  have a1q : (2 : ℚ) ^ (log2Fuel x.num.natAbs x.num.natAbs) ≤ (x.num.natAbs : ℚ) := by
    exact_mod_cast a1
  have a2q : (x.num.natAbs : ℚ) < (2 : ℚ) ^ (log2Fuel x.num.natAbs x.num.natAbs + 1) := by
    exact_mod_cast a2
  have b1q : (2 : ℚ) ^ (log2Fuel x.den x.den) ≤ (x.den : ℚ) := by
    exact_mod_cast b1
  have b2q : (x.den : ℚ) < (2 : ℚ) ^ (log2Fuel x.den x.den + 1) := by
    exact_mod_cast b2
  generalize ha : log2Fuel x.num.natAbs x.num.natAbs = a at a1q a2q
  generalize hb : log2Fuel x.den x.den = b at b1q b2q
  have hpa : (0 : ℚ) < 2 ^ a := by positivity
  have hpb : (0 : ℚ) < 2 ^ b := by positivity
  have e1 : (2 : ℚ) ^ ((a : Int) - (b : Int) + 1) = 2 ^ (a + 1) / 2 ^ b := by
    rw [show ((a : Int) - (b : Int) + 1) = ((a + 1 : Nat) : Int) - (b : Int) by push_cast; ring,
      zpow_sub₀ (by norm_num), zpow_natCast, zpow_natCast]
  have e2 : (2 : ℚ) ^ ((a : Int) - (b : Int) - 1) = 2 ^ a / 2 ^ (b + 1) := by
    rw [show ((a : Int) - (b : Int) - 1) = (a : Int) - ((b + 1 : Nat) : Int) by push_cast; ring,
      zpow_sub₀ (by norm_num), zpow_natCast, zpow_natCast]
  unfold floorLog2
  simp only [ha, hb]
  split_ifs with h
  · refine ⟨h, ?_⟩
    rw [e1, habs, div_lt_div_iff₀ hDq hpb]
    calc (x.num.natAbs : ℚ) * 2 ^ b < 2 ^ (a + 1) * 2 ^ b := by
          apply mul_lt_mul_of_pos_right a2q hpb
      _ ≤ 2 ^ (a + 1) * (x.den : ℚ) := by
          apply mul_le_mul_of_nonneg_left b1q (by positivity)
  · push_neg at h
    refine ⟨?_, by simpa using h⟩
    rw [e2, habs, div_le_div_iff₀ (by positivity) hDq]
    calc (2 : ℚ) ^ a * (x.den : ℚ) ≤ 2 ^ a * 2 ^ (b + 1) := by
          apply mul_le_mul_of_nonneg_left b2q.le (by positivity)
      _ ≤ (x.num.natAbs : ℚ) * 2 ^ (b + 1) := by
          apply mul_le_mul_of_nonneg_right a1q (by positivity)

theorem roundHalfEven_bounds (m : ℚ) :
    ⌊m⌋ ≤ roundHalfEven m ∧ roundHalfEven m ≤ ⌊m⌋ + 1 := by
  unfold roundHalfEven
  simp only
  split_ifs <;> constructor <;> omega

theorem roundHalfEven_err (m : ℚ) : |(roundHalfEven m : ℚ) - m| ≤ 1 / 2 := by
  have h1 := Int.floor_le m
  have h2 := Int.lt_floor_add_one m
  unfold roundHalfEven
  simp only
  rw [abs_le]
  split_ifs with ha hb hc
  · constructor <;> linarith
  · push_cast; constructor <;> linarith
  · have : m - ⌊m⌋ = 1 / 2 := le_antisymm (not_lt.mp hb) (not_lt.mp ha)
    constructor <;> linarith
  · have : m - ⌊m⌋ = 1 / 2 := le_antisymm (not_lt.mp hb) (not_lt.mp ha)
    push_cast; constructor <;> linarith

theorem roundHalfEven_intCast (k : Int) : roundHalfEven (k : ℚ) = k := by
  unfold roundHalfEven
  simp

theorem roundHalfEven_mono (a b : ℚ) (hab : a ≤ b) : roundHalfEven a ≤ roundHalfEven b := by
  have hf : ⌊a⌋ ≤ ⌊b⌋ := Int.floor_mono hab
  rcases hf.lt_or_eq with hlt | heq
  · have := (roundHalfEven_bounds a).2
    have := (roundHalfEven_bounds b).1
    omega
  · have hb1 := (roundHalfEven_bounds b)
    unfold roundHalfEven at hb1 ⊢
    simp only at hb1 ⊢
    rw [← heq] at hb1 ⊢
    have hfr : a - ⌊a⌋ ≤ b - ⌊a⌋ := by linarith
    split_ifs with h1 h2 h3 h4 h5 h6 h7 h8 h9 <;> first | omega | (exfalso; linarith)

theorem roundNearestEven_of_ne (x : ℚ) (hx : x ≠ 0) :
    roundNearestEven 53 x =
      (roundHalfEven (x / 2 ^ (floorLog2 x - 52)) : ℚ) * 2 ^ (floorLog2 x - 52) := by
  unfold roundNearestEven
  rw [if_neg hx]
  norm_num

theorem roundNearestEven_zero : roundNearestEven 53 0 = 0 := by
  simp [roundNearestEven]

theorem two_zpow_sub (E : Int) : (2 : ℚ) ^ (E - 52) = 2 ^ E / 2 ^ 52 := by
  rw [zpow_sub₀ (by norm_num)]
  norm_num

theorem roundNearestEven_err (x : ℚ) : |roundNearestEven 53 x - x| ≤ |x| / 2 ^ 53 := by
  by_cases hx : x = 0
  · subst hx
    simp [roundNearestEven_zero]
  · rw [roundNearestEven_of_ne x hx]
    obtain ⟨h1, _⟩ := floorLog2_spec x hx
    have hu2 := two_zpow_sub (floorLog2 x)
    generalize (2 : ℚ) ^ (floorLog2 x - 52) = u at hu2 ⊢
    have hupos : 0 < u := by rw [hu2]; positivity
    have he := roundHalfEven_err (x / u)
    have hre : (roundHalfEven (x / u) : ℚ) * u - x = ((roundHalfEven (x / u) : ℚ) - x / u) * u := by
      field_simp
    rw [hre, abs_mul, abs_of_pos hupos]
    calc |(roundHalfEven (x / u) : ℚ) - x / u| * u ≤ 1 / 2 * u :=
          mul_le_mul_of_nonneg_right he hupos.le
      _ = 2 ^ floorLog2 x / 2 ^ 53 := by rw [hu2]; ring
      _ ≤ |x| / 2 ^ 53 := div_le_div_of_nonneg_right h1 (by positivity)

theorem roundNearestEven_fix (m e : Int) (hm : |m| < 2 ^ 53) :
    roundNearestEven 53 ((m : ℚ) * 2 ^ e) = (m : ℚ) * 2 ^ e := by
  by_cases hx : (m : ℚ) * 2 ^ e = 0
  · rw [hx, roundNearestEven_zero]
  · rw [roundNearestEven_of_ne _ hx]
    obtain ⟨h1, _⟩ := floorLog2_spec _ hx
    generalize floorLog2 ((m : ℚ) * 2 ^ e) = E at h1 ⊢
    have hmq : |(m : ℚ)| < 2 ^ 53 := by exact_mod_cast hm
    have hlt : (2 : ℚ) ^ E < 2 ^ (53 + e) := by
      calc (2 : ℚ) ^ E ≤ |(m : ℚ) * 2 ^ e| := h1
        _ = |(m : ℚ)| * 2 ^ e := by
          rw [abs_mul, abs_of_pos (show (0 : ℚ) < 2 ^ e by positivity)]
        _ < 2 ^ 53 * 2 ^ e := mul_lt_mul_of_pos_right hmq (by positivity)
        _ = 2 ^ (53 + e) := by rw [zpow_add₀ (by norm_num)]; norm_num
    have hE : E < 53 + e := (zpow_lt_zpow_iff_right₀ (by norm_num : (1 : ℚ) < 2)).mp hlt
    obtain ⟨k, hk⟩ : ∃ k : Nat, e - (E - 52) = k := ⟨(e - (E - 52)).toNat, by omega⟩
    have hdiv : (m : ℚ) * 2 ^ e / 2 ^ (E - 52) = ((m * 2 ^ k : Int) : ℚ) := by
      rw [mul_div_assoc, ← zpow_sub₀ (by norm_num), hk]
      push_cast
      rw [zpow_natCast]
    rw [hdiv, roundHalfEven_intCast]
    push_cast
    rw [mul_assoc, ← zpow_natCast, ← hk, ← zpow_add₀ (by norm_num)]
    congr 2
    ring

theorem roundNearestEven_nonneg (y : ℚ) (hy : 0 ≤ y) : 0 ≤ roundNearestEven 53 y := by
  by_cases hy0 : y = 0
  · rw [hy0, roundNearestEven_zero]
  · rw [roundNearestEven_of_ne y hy0]
    have hu : (0 : ℚ) < 2 ^ (floorLog2 y - 52) := by positivity
    have hfl : 0 ≤ ⌊y / 2 ^ (floorLog2 y - 52)⌋ := Int.floor_nonneg.mpr (div_nonneg hy hu.le)
    have hb := (roundHalfEven_bounds (y / 2 ^ (floorLog2 y - 52))).1
    have : (0 : ℚ) ≤ (roundHalfEven (y / 2 ^ (floorLog2 y - 52)) : ℚ) := by
      exact_mod_cast hfl.trans hb
    exact mul_nonneg this hu.le

theorem roundNearestEven_binade (x : ℚ) (hx : 0 < x) :
    (2 : ℚ) ^ floorLog2 x ≤ roundNearestEven 53 x ∧
      roundNearestEven 53 x ≤ (2 : ℚ) ^ (floorLog2 x + 1) := by
  obtain ⟨h1, h2⟩ := floorLog2_spec x hx.ne'
  rw [abs_of_pos hx] at h1 h2
  rw [roundNearestEven_of_ne x hx.ne']
  have hu2 := two_zpow_sub (floorLog2 x)
  have hE1 : (2 : ℚ) ^ (floorLog2 x + 1) = 2 ^ floorLog2 x * 2 := by
    rw [zpow_add₀ (by norm_num)]; norm_num
  rw [hE1] at h2 ⊢
  generalize (2 : ℚ) ^ (floorLog2 x - 52) = u at hu2 ⊢
  have hP : (0 : ℚ) < 2 ^ floorLog2 x := by positivity
  generalize (2 : ℚ) ^ floorLog2 x = P at hu2 h1 h2 hP ⊢
  have hupos : 0 < u := by rw [hu2]; positivity
  have hP2 : P = 2 ^ 52 * u := by rw [hu2]; field_simp
  have hlo : ((2 ^ 52 : Int) : ℚ) ≤ x / u := by
    rw [le_div_iff₀ hupos]
    push_cast
    linarith
  have hhi : x / u ≤ ((2 ^ 53 : Int) : ℚ) := by
    rw [div_le_iff₀ hupos]
    push_cast
    linarith
  have r1 := roundHalfEven_mono _ _ hlo
  have r2 := roundHalfEven_mono _ _ hhi
  rw [roundHalfEven_intCast] at r1 r2
  have q1 : ((2 ^ 52 : Int) : ℚ) ≤ (roundHalfEven (x / u) : ℚ) := by exact_mod_cast r1
  have q2 : (roundHalfEven (x / u) : ℚ) ≤ ((2 ^ 53 : Int) : ℚ) := by exact_mod_cast r2
  push_cast at q1 q2
  constructor
  · calc P = 2 ^ 52 * u := hP2
      _ ≤ (roundHalfEven (x / u) : ℚ) * u := mul_le_mul_of_nonneg_right q1 hupos.le
  · calc (roundHalfEven (x / u) : ℚ) * u ≤ 2 ^ 53 * u := mul_le_mul_of_nonneg_right q2 hupos.le
      _ = P * 2 := by rw [hP2]; ring

theorem roundNearestEven_mono (x y : ℚ) (hx : 0 ≤ x) (hxy : x ≤ y) :
    roundNearestEven 53 x ≤ roundNearestEven 53 y := by
  rcases hx.lt_or_eq with hpos | h0
  · have hy : 0 < y := lt_of_lt_of_le hpos hxy
    obtain ⟨x1, x2⟩ := floorLog2_spec x hpos.ne'
    obtain ⟨y1, y2⟩ := floorLog2_spec y hy.ne'
    rw [abs_of_pos hpos] at x1 x2
    rw [abs_of_pos hy] at y1 y2
    have hlt : (2 : ℚ) ^ floorLog2 x < 2 ^ (floorLog2 y + 1) :=
      lt_of_le_of_lt (x1.trans hxy) y2
    have hE : floorLog2 x < floorLog2 y + 1 :=
      (zpow_lt_zpow_iff_right₀ (by norm_num : (1 : ℚ) < 2)).mp hlt
    rcases (Int.lt_add_one_iff.mp hE).lt_or_eq with hne | heq
    · have hstep : (2 : ℚ) ^ (floorLog2 x + 1) ≤ 2 ^ floorLog2 y :=
        zpow_le_zpow_right₀ (by norm_num) (by omega)
      exact ((roundNearestEven_binade x hpos).2.trans hstep).trans
        (roundNearestEven_binade y hy).1
    · rw [roundNearestEven_of_ne x hpos.ne', roundNearestEven_of_ne y hy.ne', heq]
      have hu : (0 : ℚ) < 2 ^ (floorLog2 y - 52) := by positivity
      apply mul_le_mul_of_nonneg_right _ hu.le
      have := roundHalfEven_mono _ _ (div_le_div_of_nonneg_right hxy hu.le)
      exact_mod_cast this
  · rw [← h0, roundNearestEven_zero]
    exact roundNearestEven_nonneg y (h0 ▸ hxy)

/-- The rounding of doubles has the three properties the statements use. -/
theorem isRounding_roundNearestEven : IsRounding (roundNearestEven 53) :=
  ⟨roundNearestEven_mono, roundNearestEven_fix, roundNearestEven_err⟩

/-! ## The claims about `bootMedianCI_Cpp` -/

/-- C1. The result is meant to be the pair of entries at positions `lowerIndex` and
`upperIndex` of the sorted `n` resample medians. The loop counter is read without
having been initialised; when it starts at 2 in a call with `x = c(1)`, `n = 2`,
`clevel = 0.5`, no round is executed and the call returns `(0, 0)`, the zero-filled
vector, although both resample medians are 1 and both positions are 1. -/
theorem resample_medians_skipped :
    bootMedianCI_Cpp [some 1] 2 (1 / 2) 2 constDraws = Outcome.ci (some 0) (some 0) ∧
      std_sort (resampleMedians [some 1] 2 constDraws) = [some 1, some 1] ∧
      lowerIndex 2 (1 / 2) = 1 ∧ upperIndex 2 (1 / 2) = 1 := by
  decide!

/-- C3, as stated, fails: for the sample `(1, 2, 3)`, `n = 3` and `clevel = 0.1` the
lower index is 2 and the upper index is 1; with resample medians 1, 2, 3 the call
returns `(3, 2)`, whose lower bound exceeds its upper bound. A sample without any
non-missing entry gives `(NA, NA)`, for which `lower <= upper` is not true either. -/
theorem interval_reversed :
    bootMedianCI_Cpp [some 1, some 2, some 3] 3 (1 / 10) 0 stepDraws =
        Outcome.ci (some 3) (some 2) ∧
      ¬ Value.le (some 3) (some 2) ∧
      bootMedianCI_Cpp [none] 2 (1 / 2) 0 constDraws = Outcome.ci none none ∧
      ¬ Value.le none none := by
  refine ⟨by decide!, ?_, by decide!, ?_⟩
  · norm_num [Value.le]
  · simp [Value.le]

/-- C3, amended. For every non-empty sample without missing entries, every
iteration count `n ≥ 1` and confidence `0 < c < 1` for which the lower index does not
exceed the upper index (as is the case whenever `n * c ≥ 1`), and every sequence of
draws, whenever the call returns an interval `(lower, upper)`, `lower <= upper`. -/
theorem lower_le_upper (x : List Value) (n : Int) (c : ℚ) (i0 : Int) (draws : Nat → Unif)
    (a b : Value) (hne : x ≠ []) (hna : ∀ v ∈ x, v ≠ none) (_hn : 1 ≤ n) (_h0 : 0 < c)
    (_h1 : c < 1) (hidx : lowerIndex n c ≤ upperIndex n c)
    (h : bootMedianCI_Cpp x n c i0 draws = Outcome.ci a b) : Value.le a b := by
  obtain ⟨_, hsub⟩ := bootMedianCI_Cpp_eq_ci x n c i0 draws a b h
  have hall := (fillMedians_forall (· ≠ none) x draws n
    (fun pos => roundMedian_ne_none x draws pos hne hna) (n - i0).toNat i0 0
    (List.replicate n.toNat (some 0))
    (fun v hv => by rw [List.eq_of_mem_replicate hv]; simp)).1
  have hmap := (na_omit_of_forall_some _ hall).2
  rw [subset_pair, ← hmap] at hsub
  exact std_sort_sorted _ _ _ a b (by omega) hsub.2.1 hsub.2.2

/-- Instance of `lower_le_upper` at the sample `(1, 2, 3)`, `n = 3`, `c = 1/2`, where the call
returns `(2, 3)`. -/
theorem lower_le_upper_witness :
    ([some 1, some 2, some 3] : List Value) ≠ [] ∧
      (∀ v ∈ ([some 1, some 2, some 3] : List Value), v ≠ none) ∧
      (1 : Int) ≤ 3 ∧ (0 : ℚ) < 1 / 2 ∧ (1 / 2 : ℚ) < 1 ∧
      lowerIndex 3 (1 / 2) ≤ upperIndex 3 (1 / 2) ∧
      bootMedianCI_Cpp [some 1, some 2, some 3] 3 (1 / 2) 0 stepDraws =
        Outcome.ci (some 2) (some 3) ∧
      Value.le (some 2) (some 3) :=
  ⟨by simp, by simp, by norm_num, by norm_num, by norm_num, by decide!, by decide!,
    lower_le_upper [some 1, some 2, some 3] 3 (1 / 2) 0 stepDraws (some 2) (some 3)
      (by simp) (by simp) (by norm_num) (by norm_num) (by norm_num)
      (lowerIndex_le_upperIndex 3 (1 / 2) (by norm_num)) (by decide!)⟩

/-- C4, as stated, fails: for the constant sample `(5)`, `n = 1` and `clevel = 0.5`
the lower index is 1, the bounds check of the subsetting stops the call with an
index error and no interval `(5, 5)` is returned. The same happens with `n = 2` at
the largest double below 1, `clevel = 1 - 2^-53`, where the upper index rounds to 2. -/
theorem constant_sample_single_iteration :
    bootMedianCI_Cpp [some 5] 1 (1 / 2) 0 constDraws = Outcome.indexError ∧
      bootMedianCI_Cpp [some 5] 1 (1 / 2) 0 constDraws ≠ Outcome.ci (some 5) (some 5) ∧
      bootMedianCI_CppRounded (roundNearestEven 53) [some 5] 1 (1 / 2) 0 constDraws =
        Outcome.indexError ∧
      bootMedianCI_CppRounded (roundNearestEven 53) [some 5] 2 (1 - 1 / 2 ^ 53) 0 constDraws =
        Outcome.indexError := by
  decide!

/-- C4, amended. For every non-empty sample whose elements all equal one value `v`
with `|v| < 2^1023` (so that `v + v` does not overflow), every iteration count `n`
with `2 ≤ n < 2^31`, every confidence `0 < c ≤ 1 - 2^-52` (every double of the open
unit interval but the largest) and every sequence of draws, a call whose loop
counter starts at 0 returns the interval `(v, v)`, whatever rounding to nearest the
double operations of lines 22 and 23 apply. -/
theorem constant_sample_interval (fl : ℚ → ℚ) (hfl : IsRounding fl) (x : List Value)
    (v : ℚ) (n : Int) (c : ℚ) (draws : Nat → Unif) (hne : x ≠ [])
    (hall : ∀ e ∈ x, e = some v) (_hv : |v| < 2 ^ 1023) (hn : 2 ≤ n) (hn2 : n < 2 ^ 31)
    (h0 : 0 < c) (h1 : c ≤ 1 - 1 / 2 ^ 52) :
    bootMedianCI_CppRounded fl x n c 0 draws = Outcome.ci (some v) (some v) := by
  have hlo := lowerIndexRounded_bounds hfl n c hn hn2 h0 h1
  have hhi := upperIndexRounded_bounds hfl n c (by omega) hn2 h0 h1
  exact bootMedianCI_CppRounded_const_medians fl x n c draws (some v) (by omega)
    ⟨by omega, hlo.2⟩ hhi fun pos => roundMedian_const x draws pos v hne hall

/-- Instance of `constant_sample_interval` with the rounding of doubles, at the
sample `(5, 5)`, `n = 2` and the largest confidence admitted, `c = 1 - 2^-52`. -/
theorem constant_sample_interval_witness :
    IsRounding (roundNearestEven 53) ∧ ([some 5, some 5] : List Value) ≠ [] ∧
      (∀ e ∈ ([some 5, some 5] : List Value), e = some 5) ∧ |(5 : ℚ)| < 2 ^ 1023 ∧
      (2 : Int) ≤ 2 ∧ (2 : Int) < 2 ^ 31 ∧ (0 : ℚ) < 1 - 1 / 2 ^ 52 ∧
      (1 - 1 / 2 ^ 52 : ℚ) ≤ 1 - 1 / 2 ^ 52 ∧
      bootMedianCI_CppRounded (roundNearestEven 53) [some 5, some 5] 2 (1 - 1 / 2 ^ 52) 0
        stepDraws = Outcome.ci (some 5) (some 5) :=
  ⟨isRounding_roundNearestEven, by simp, by simp, by norm_num [abs_of_pos], by norm_num,
    by norm_num, by norm_num, le_refl _,
    constant_sample_interval (roundNearestEven 53) isRounding_roundNearestEven
      [some 5, some 5] 5 2 (1 - 1 / 2 ^ 52) stepDraws (by simp) (by simp)
      (by norm_num [abs_of_pos]) (by norm_num) (by norm_num) (by norm_num) (le_refl _)⟩

/-- C5, as stated, fails: for the empty sample, and for a sample made only of
missing values, a call with `n = 2` and `clevel = 0.5` raises no error and returns
the interval `(NA, NA)`. -/
theorem empty_sample_returns :
    bootMedianCI_Cpp [] 2 (1 / 2) 0 constDraws = Outcome.ci none none ∧
      bootMedianCI_Cpp [none, none] 2 (1 / 2) 0 constDraws = Outcome.ci none none ∧
      ¬ (Outcome.ci none none).isError := by
  refine ⟨by decide!, by decide!, ?_⟩
  simp [Outcome.isError]

/-- C5, amended. For every sample with zero non-missing elements (the empty sample,
or a sample made only of missing values), every iteration count `n` with
`2 ≤ n < 2^31` and every confidence `0 < c ≤ 1 - 2^-52` (every double of the open
unit interval but the largest), a call whose loop counter starts at 0 raises no
error and returns the interval `(NA, NA)`, whatever rounding to nearest the double
operations of lines 22 and 23 apply. -/
theorem all_missing_sample_interval (fl : ℚ → ℚ) (hfl : IsRounding fl) (x : List Value)
    (n : Int) (c : ℚ) (draws : Nat → Unif) (hall : ∀ e ∈ x, e = none) (hn : 2 ≤ n)
    (hn2 : n < 2 ^ 31) (h0 : 0 < c) (h1 : c ≤ 1 - 1 / 2 ^ 52) :
    bootMedianCI_CppRounded fl x n c 0 draws = Outcome.ci none none := by
  have hlo := lowerIndexRounded_bounds hfl n c hn hn2 h0 h1
  have hhi := upperIndexRounded_bounds hfl n c (by omega) hn2 h0 h1
  exact bootMedianCI_CppRounded_const_medians fl x n c draws none (by omega)
    ⟨by omega, hlo.2⟩ hhi fun pos => roundMedian_all_missing x draws pos hall

/-- Instance of `all_missing_sample_interval` with the rounding of doubles, at the
sample `(NA, NA, NA)`, `n = 5` and the double nearest to 0.1. -/
theorem all_missing_sample_interval_witness :
    IsRounding (roundNearestEven 53) ∧ (∀ e ∈ ([none, none, none] : List Value), e = none) ∧
      (2 : Int) ≤ 5 ∧ (5 : Int) < 2 ^ 31 ∧ (0 : ℚ) < roundNearestEven 53 (1 / 10) ∧
      roundNearestEven 53 (1 / 10) ≤ 1 - 1 / 2 ^ 52 ∧
      bootMedianCI_CppRounded (roundNearestEven 53) [none, none, none] 5
        (roundNearestEven 53 (1 / 10)) 0 stepDraws = Outcome.ci none none :=
  ⟨isRounding_roundNearestEven, by simp, by norm_num, by norm_num, by decide!, by decide!,
    all_missing_sample_interval (roundNearestEven 53) isRounding_roundNearestEven
      [none, none, none] 5 (roundNearestEven 53 (1 / 10)) stepDraws (by simp) (by norm_num)
      (by norm_num) (by decide!) (by decide!)⟩

/-- Between the two the error of C6 cannot be promised: for every confidence
`-1 + 2^-28 ≤ c ≤ 0` some iteration count `1 ≤ n < 2^31` makes the call return an
interval, here for the sample `(1)` and whatever rounding to nearest the double
operations apply. -/
theorem confidence_between_can_return (fl : ℚ → ℚ) (hfl : IsRounding fl) (c : ℚ)
    (h1 : -1 + 1 / 2 ^ 28 ≤ c) (h0 : c ≤ 0) :
    ∃ n : Int, 1 ≤ n ∧ n < 2 ^ 31 ∧
      bootMedianCI_CppRounded fl [some 1] n c 0 constDraws = Outcome.ci (some 1) (some 1) := by
  have hpos : 0 < 1 + c := by
    have : (0 : ℚ) < 1 / 2 ^ 28 := by positivity
    linarith
  have hge : (4 : ℚ) ≤ 4 / (1 + c) := by
    rw [le_div_iff₀ hpos]
    linarith
  have hn4 : (4 : Int) ≤ ⌈4 / (1 + c)⌉ := by
    have := Int.ceil_mono hge
    rwa [show ((4 : ℚ)) = ((4 : Int) : ℚ) by norm_num, Int.ceil_intCast] at this
  have hle : 4 / (1 + c) ≤ ((2 ^ 30 : Int) : ℚ) := by
    rw [div_le_iff₀ hpos]
    push_cast
    linarith
  have hn30 : ⌈4 / (1 + c)⌉ ≤ 2 ^ 30 := Int.ceil_le.mpr hle
  have hmul : 4 ≤ ((⌈4 / (1 + c)⌉ : Int) : ℚ) * (1 + c) := by
    have := Int.le_ceil (4 / (1 + c))
    rw [div_le_iff₀ hpos] at this
    exact this
  generalize ⌈4 / (1 + c)⌉ = n at hn4 hn30 hmul
  have hq4 : (4 : ℚ) ≤ (n : ℚ) := by exact_mod_cast hn4
  have hq30 : (n : ℚ) ≤ 2 ^ 30 := by exact_mod_cast hn30
  have hnabs : |n| < 2 ^ 53 := by
    rw [abs_of_nonneg (by omega)]; omega
  have hn1abs : |n - 1| < 2 ^ 53 := by
    rw [abs_of_nonneg (by omega)]; omega
  have hn3abs : |2 * n - 3| < 2 ^ 53 := by
    rw [abs_of_nonneg (by omega)]; omega
  have h2 : fl 2 = 2 := by
    have := hfl.int 2 (by norm_num)
    simpa using this
  have hhalf : fl (1 / 2) = 1 / 2 := by
    have := hfl.half_int 1 (by norm_num)
    simpa using this
  -- the rounded difference
  have ha1 : 1 ≤ fl (1 - c) := hfl.ge_of_ge hfl.one (by norm_num) (by linarith)
  have ha2 : fl (1 - c) ≤ 2 := hfl.le_of_le h2 (by norm_num) (by linarith)
  have haerr : fl (1 - c) ≤ 1 - c + 2 / 2 ^ 53 := by
    have he := (abs_le.mp (hfl.err (1 - c))).2
    rw [abs_of_nonneg (by linarith)] at he
    have : (1 - c) / 2 ^ 53 ≤ 2 / 2 ^ 53 := div_le_div_of_nonneg_right (by linarith) (by positivity)
    linarith
  -- the lower index
  have hp0 : 0 ≤ fl ((n : ℚ) * fl (1 - c)) :=
    hfl.ge_of_ge hfl.zero (le_refl 0) (mul_nonneg (by linarith) (by linarith))
  have hp : fl ((n : ℚ) * fl (1 - c)) ≤ 2 * (n : ℚ) - 3 := by
    have hfix : fl (2 * (n : ℚ) - 3) = 2 * (n : ℚ) - 3 := by
      have := hfl.int (2 * n - 3) hn3abs
      push_cast at this
      exact this
    apply hfl.le_of_le hfix (by linarith)
    have e1 : (n : ℚ) * fl (1 - c) ≤ (n : ℚ) * (1 - c + 2 / 2 ^ 53) :=
      mul_le_mul_of_nonneg_left haerr (by linarith)
    have e2 : (n : ℚ) * (2 / 2 ^ 53) ≤ 2 ^ 30 * (2 / 2 ^ 53) :=
      mul_le_mul_of_nonneg_right hq30 (by positivity)
    have e3 : (2 : ℚ) ^ 30 * (2 / 2 ^ 53) ≤ 1 := by norm_num
    linarith
  have hq0 : 0 ≤ fl (fl ((n : ℚ) * fl (1 - c)) / 2) :=
    hfl.ge_of_ge hfl.zero (le_refl 0) (by linarith)
  have hq : fl (fl ((n : ℚ) * fl (1 - c)) / 2) ≤ (n : ℚ) - 1 := by
    have hfix : fl ((n : ℚ) - 1) = (n : ℚ) - 1 := by
      have := hfl.int (n - 1) hn1abs
      push_cast at this
      exact this
    apply hfl.le_of_le hfix (by linarith)
    linarith
  -- the upper index
  have hb1 : 1 / 2 ≤ fl (fl (1 - c) / 2) := hfl.ge_of_ge hhalf (by norm_num) (by linarith)
  have hb2 : fl (fl (1 - c) / 2) ≤ 1 := hfl.le_of_le hfl.one (by norm_num) (by linarith)
  have hd1 : 0 ≤ fl (1 - fl (fl (1 - c) / 2)) :=
    hfl.ge_of_ge hfl.zero (le_refl 0) (by linarith)
  have hd2 : fl (1 - fl (fl (1 - c) / 2)) ≤ 1 / 2 :=
    hfl.le_of_le hhalf (by norm_num) (by linarith)
  have hr1 : 0 ≤ fl ((n : ℚ) * fl (1 - fl (fl (1 - c) / 2))) :=
    hfl.ge_of_ge hfl.zero (le_refl 0) (mul_nonneg (by linarith) hd1)
  have hr2 : fl ((n : ℚ) * fl (1 - fl (fl (1 - c) / 2))) ≤ (n : ℚ) / 2 := by
    apply hfl.le_of_le (hfl.half_int n hnabs) (by linarith)
    have := mul_le_mul_of_nonneg_left hd2 (show (0 : ℚ) ≤ (n : ℚ) by linarith)
    linarith
  refine ⟨n, by omega, by omega, ?_⟩
  apply bootMedianCI_CppRounded_const_medians fl [some 1] n c constDraws (some 1) (by omega)
  · constructor
    · exact Int.ceil_nonneg hq0
    · unfold lowerIndexRounded
      rw [Int.ceil_le]
      push_cast
      exact hq
  · constructor
    · exact Int.floor_nonneg.mpr hr1
    · have : upperIndexRounded fl n c < n := by
        unfold upperIndexRounded
        rw [Int.floor_lt]
        linarith
      omega
  · intro pos
    exact roundMedian_const [some 1] constDraws pos 1 (by simp) (by simp)

/-- C8. With the iteration count `n ≥ 1` fixed and `0 < c1 ≤ c2 < 1`, the lower
index computed for `c2` is at most the one for `c1` and the upper index for `c2`
is at least the one for `c1`: the index interval widens as confidence grows. -/
theorem index_interval_widens (n : Int) (c1 c2 : ℚ) (hn : 1 ≤ n) (h0 : 0 < c1)
    (h12 : c1 ≤ c2) (h1 : c2 < 1) :
    lowerIndex n c2 ≤ lowerIndex n c1 ∧ upperIndex n c1 ≤ upperIndex n c2 := by
  have hq : (1 : ℚ) ≤ (n : ℚ) := by exact_mod_cast hn
  constructor
  · unfold lowerIndex
    apply Int.ceil_mono
    have : (n : ℚ) * (1 - c2) ≤ (n : ℚ) * (1 - c1) :=
      mul_le_mul_of_nonneg_left (by linarith) (by linarith)
    linarith
  · unfold upperIndex
    apply Int.floor_mono
    apply mul_le_mul_of_nonneg_left (by linarith) (by linarith)

/-- Instance of `index_interval_widens` at `n = 10`, `c1 = 1/2`, `c2 = 9/10`. -/
theorem index_interval_widens_witness :
    (1 : Int) ≤ 10 ∧ (0 : ℚ) < 1 / 2 ∧ (1 / 2 : ℚ) ≤ 9 / 10 ∧ (9 / 10 : ℚ) < 1 ∧
      lowerIndex 10 (9 / 10) ≤ lowerIndex 10 (1 / 2) ∧
      upperIndex 10 (1 / 2) ≤ upperIndex 10 (9 / 10) :=
  ⟨by norm_num, by norm_num, by norm_num, by norm_num,
    index_interval_widens 10 (1 / 2) (9 / 10) (by norm_num) (by norm_num) (by norm_num)
      (by norm_num)⟩

/-- C9. In every round the resample has exactly the length of the original sample
and each of its elements is an element of the original sample, missing entries
included: entry `j` is the entry of the whole sample at the drawn position. Missing
entries are removed from the resample only, when its median is taken, and that
median is what a round of the loop stores. -/
theorem resample_from_full_sample (x : List Value) (draws : Nat → Unif) (pos : Nat) :
    (sample x x.length draws pos).length = x.length ∧
      (∀ e ∈ sample x x.length draws pos, e ∈ x) ∧
      (∀ j, j < x.length → ∃ k, k < x.length ∧
        (sample x x.length draws pos)[j]? = x[k]?) ∧
      roundMedian x draws pos = median (na_omit (sample x x.length draws pos)) ∧
      ∀ (n : Int) (fuel : Nat) (i : Int) (medians : List Value), 0 ≤ i → i < n →
        fillMedians x draws n (fuel + 1) i pos medians =
          fillMedians x draws n fuel (i + 1) (pos + x.length)
            (medians.set i.toNat (median (na_omit (sample x x.length draws pos)))) := by
  refine ⟨length_sample x x.length draws pos,
    fun e he => mem_of_mem_sample_self x draws pos e he, ?_, rfl, ?_⟩
  · intro j hj
    have hlt := drawIndex_lt x.length (draws (pos + j)) (by omega)
    refine ⟨_, hlt, ?_⟩
    simp only [sample, List.getElem?_map, List.getElem?_range hj, Option.map_some']
    rw [List.getElem?_eq_getElem hlt]
    simp
  · intro n fuel i medians hi hin
    rw [fillMedians, if_pos hin, if_neg (by omega)]
    rfl

/-- Instance of `resample_from_full_sample` at the sample `(3, NA, 2)`: with every draw
equal to 1/2 the resample is `(NA, NA, NA)`, three entries of the sample. -/
theorem resample_from_full_sample_witness :
    sample [some 3, none, some 2] 3 constDraws 0 = [none, none, none] ∧
      (sample [some 3, none, some 2] [some 3, none, some 2].length constDraws 0).length =
        [some 3, none, some 2].length ∧
      (∀ e ∈ sample [some 3, none, some 2] [some 3, none, some 2].length constDraws 0,
        e ∈ [some 3, none, some 2]) :=
  ⟨by decide!, (resample_from_full_sample [some 3, none, some 2] constDraws 0).1,
    (resample_from_full_sample [some 3, none, some 2] constDraws 0).2.1⟩

/-- C10. Two invocations with the same inputs and the same sequence of draws are
meant to return the same result. The loop counter is read without having been
initialised, so the result also depends on its starting value: for `x = c(1)`,
`n = 2`, `clevel = 0.5` and the same draws, a start at 0 returns `(1, 1)` and a start
at 2 returns `(0, 0)`. -/
theorem outcome_depends_on_counter_start :
    bootMedianCI_Cpp [some 1] 2 (1 / 2) 0 constDraws = Outcome.ci (some 1) (some 1) ∧
      bootMedianCI_Cpp [some 1] 2 (1 / 2) 2 constDraws = Outcome.ci (some 0) (some 0) ∧
      bootMedianCI_Cpp [some 1] 2 (1 / 2) 0 constDraws ≠
        bootMedianCI_Cpp [some 1] 2 (1 / 2) 2 constDraws := by
  decide!

/-! ## The unguarded index formula -/

theorem lowerIndex_one (c : ℚ) (h0 : 0 < c) (h1 : c < 1) : lowerIndex 1 c = 1 := by
  have hpos := lowerIndex_pos 1 c (le_refl 1) h1
  have hle : lowerIndex 1 c ≤ 1 := by
    unfold lowerIndex
    rw [Int.ceil_le]
    push_cast
    linarith
  omega

/-- With `n = 0`, outside the positive iteration counts of the contract, both
indices are 0 and the vector of medians has no position at all. -/
theorem index_at_zero_iterations (c : ℚ) : lowerIndex 0 c = 0 ∧ upperIndex 0 c = 0 := by
  simp [lowerIndex, upperIndex]

/-- C14, as stated, fails: with `n = 0` and `c = 1/2` the lower index is 0, not at
least 1, and it lies outside the empty range of valid positions although `n` is
not 1. -/
theorem index_formula_at_zero_iterations :
    (0 : ℚ) < 1 / 2 ∧ (1 / 2 : ℚ) < 1 ∧ lowerIndex 0 (1 / 2) = 0 ∧
      ¬ (1 ≤ lowerIndex 0 (1 / 2)) ∧
      ¬ (0 ≤ lowerIndex 0 (1 / 2) ∧ lowerIndex 0 (1 / 2) ≤ 0 - 1) ∧ (0 : Int) ≠ 1 := by
  decide!

/-- C14, amended. For a confidence `0 < c < 1` and an iteration count `n ≥ 1`, in exact
arithmetic: the lower index is always at least 1; an index lies outside `[0, n-1]`
exactly when `n = 1`, where the lower index is 1 while the only valid position is 0;
for every `n ≥ 2` both the lower and the upper index lie in `[0, n-1]`. -/
theorem unguarded_index_range (n : Int) (c : ℚ) (hn : 1 ≤ n) (h0 : 0 < c) (h1 : c < 1) :
    1 ≤ lowerIndex n c ∧
      ((¬ (0 ≤ lowerIndex n c ∧ lowerIndex n c ≤ n - 1) ∨
        ¬ (0 ≤ upperIndex n c ∧ upperIndex n c ≤ n - 1)) ↔ n = 1) ∧
      (n = 1 → lowerIndex n c = 1 ∧ upperIndex n c = 0) ∧
      (2 ≤ n → (0 ≤ lowerIndex n c ∧ lowerIndex n c ≤ n - 1) ∧
        (0 ≤ upperIndex n c ∧ upperIndex n c ≤ n - 1)) := by
  have hlo := lowerIndex_pos n c hn h1
  have hhi0 := upperIndex_nonneg n c (by omega) (by linarith)
  have hhi1 := upperIndex_le n c hn h1
  refine ⟨hlo, ⟨?_, ?_⟩, ?_, ?_⟩
  · intro h
    by_contra hne
    have hlo2 := lowerIndex_le n c (by omega) h0
    omega
  · intro h
    subst h
    have := lowerIndex_one c h0 h1
    omega
  · intro h
    subst h
    exact ⟨lowerIndex_one c h0 h1, by omega⟩
  · intro h
    have hlo2 := lowerIndex_le n c h h0
    exact ⟨⟨by omega, hlo2⟩, hhi0, hhi1⟩

/-- Instance of `unguarded_index_range` at `n = 1`, `c = 19/20`. -/
theorem unguarded_index_range_witness :
    (1 : Int) ≤ 1 ∧ (0 : ℚ) < 19 / 20 ∧ (19 / 20 : ℚ) < 1 ∧ lowerIndex 1 (19 / 20) = 1 ∧
      upperIndex 1 (19 / 20) = 0 :=
  ⟨by norm_num, by norm_num, by norm_num,
    (unguarded_index_range 1 (19 / 20) (by norm_num) (by norm_num) (by norm_num)).2.2.1 rfl⟩

end BootMedianCI

namespace RcppSnippets

open BootMedianCI

/-! ## Sums and means -/

theorem foldl_add_eq_sum (l : List ℚ) : l.foldl (· + ·) 0 = l.sum :=
  (List.sum_eq_foldl).symm

theorem vdiv_some (p q : ℚ) (hq : q ≠ 0) : vdiv (some p) (some q) = some (p / q) := by
  simp [vdiv, hq]

theorem vdiv_zero (p : ℚ) : vdiv (some p) (some 0) = none := by
  simp [vdiv]

theorem sum_map_sub_const (l : List ℚ) (s : ℚ) :
    (l.map fun v => v - s).sum = l.sum - l.length * s := by
  induction l with
  | nil => simp
  | cons a t ih =>
    simp only [List.map_cons, List.sum_cons, List.length_cons, ih]
    push_cast
    ring

theorem meanFinite_eq (l : List ℚ) :
    meanFinite l = vdiv (some l.sum) (some (l.length : ℚ)) := by
  unfold meanFinite
  simp only [foldl_add_eq_sum]
  by_cases hl : (l.length : ℚ) = 0
  · rw [hl, vdiv_zero]
    rfl
  · rw [vdiv_some _ _ hl]
    simp only [Option.some_bind]
    rw [sum_map_sub_const, vdiv_some _ _ hl]
    simp only [vadd, Option.some_bind, Option.map_some']
    congr 1
    field_simp

theorem finiteEntries_map_some (l : List ℚ) : finiteEntries (l.map some) = some l := by
  induction l with
  | nil => rfl
  | cons a t ih => simp [finiteEntries, ih]

theorem mean_map_some (l : List ℚ) :
    mean (l.map some) = vdiv (some l.sum) (some (l.length : ℚ)) := by
  unfold mean
  rw [finiteEntries_map_some]
  exact meanFinite_eq l

theorem foldl_vadd_map_some (l : List ℚ) (acc : ℚ) :
    (l.map some).foldl (fun sum v => vadd sum v) (some acc) = some (acc + l.sum) := by
  induction l generalizing acc with
  | nil => simp
  | cons a t ih =>
    simp only [List.map_cons, List.foldl_cons, List.sum_cons]
    have : vadd (some acc) (some a) = some (acc + a) := rfl
    rw [this, ih]
    congr 1
    ring

theorem foldl_count_total (x : List Value) (c : Nat) (t : ℚ) :
    x.foldl
      (fun (st : Nat × ℚ) v =>
        match v with
        | none => st
        | some q => (st.1 + 1, st.2 + q))
      (c, t) = (c + (na_omit x).length, t + (na_omit x).sum) := by
  induction x generalizing c t with
  | nil => simp [na_omit]
  | cons a tl ih =>
    cases a with
    | none =>
      simp only [List.foldl_cons, ih, na_omit, List.reduceOption_cons_of_none]
    | some q =>
      simp only [List.foldl_cons, ih, na_omit, List.reduceOption_cons_of_some,
        List.length_cons, List.sum_cons]
      congr 1
      · omega
      · ring

theorem foldl_inner_product (l : List ℚ) (acc w : ℚ) :
    (List.zip l (List.replicate l.length (some w))).foldl
      (fun acc p => vadd acc (vmul (some p.1) p.2)) (some acc) = some (acc + l.sum * w) := by
  induction l generalizing acc with
  | nil => simp
  | cons a t ih =>
    simp only [List.length_cons, List.replicate_succ, List.zip_cons_cons, List.foldl_cons,
      List.sum_cons]
    have : vadd (some acc) (vmul (some a) (some w)) = some (acc + a * w) := rfl
    rw [this, ih]
    congr 1
    ring

theorem myMeanNACpp2_eq (x : List Value) :
    myMeanNACpp2 x = vdiv (some (na_omit x).sum) (some ((na_omit x).length : ℚ)) := by
  unfold myMeanNACpp2
  simp only [foldl_count_total]
  simp

theorem myMeanNACpp2Sugar_eq (x : List Value) :
    myMeanNACpp2Sugar x = vdiv (some (na_omit x).sum) (some ((na_omit x).length : ℚ)) :=
  mean_map_some (na_omit x)

theorem myMeanCppIter3accum_eq (x : List Value) :
    myMeanCppIter3accum x = vdiv (some (na_omit x).sum) (some ((na_omit x).length : ℚ)) := by
  unfold myMeanCppIter3accum
  simp only [foldl_add_eq_sum]

theorem myMeanCppIter4inner_eq (x : List Value) (hne : na_omit x ≠ []) :
    myMeanCppIter4inner x = vdiv (some (na_omit x).sum) (some ((na_omit x).length : ℚ)) := by
  have hlen : ((na_omit x).length : ℚ) ≠ 0 := by
    have := List.length_pos.mpr hne
    exact_mod_cast this.ne'
  unfold myMeanCppIter4inner
  simp only
  rw [vdiv_some _ _ hlen, foldl_inner_product, vdiv_some _ _ hlen]
  congr 1
  field_simp

theorem plain_loop_mean (x : List Value) (hne : x ≠ []) (hna : ∀ v ∈ x, v ≠ none) :
    vdiv (x.foldl (fun sum v => vadd sum v) (some 0)) (some (x.length : ℚ)) =
      some ((na_omit x).sum / (x.length : ℚ)) := by
  have hx := na_omit_of_forall_some x hna
  have hlen : (x.length : ℚ) ≠ 0 := by
    have := List.length_pos.mpr hne
    exact_mod_cast this.ne'
  have hfold : x.foldl (fun sum v => vadd sum v) (some 0) = some (na_omit x).sum := by
    conv_lhs => rw [← hx.2]
    rw [foldl_vadd_map_some, zero_add]
  rw [hfold, vdiv_some _ _ hlen]

/-! ## Fit metrics -/

theorem lmFitMetricsCpp_of_not_inherits (sqrt log : ℚ → Value) (m : RList)
    (h : m.inherits "lm" = false) :
    lmFitMetricsCpp sqrt log m = LmOutcome.stop "The argument must be a lm() model result." := by
  simp [lmFitMetricsCpp, h]

theorem lmFitMetricsCpp_of_inherits (sqrt log : ℚ → Value) (m : RList)
    (h : m.inherits "lm" = true) :
    lmFitMetricsCpp sqrt log m =
      match m.numericAt "fitted.values" with
      | none => LmOutcome.accessError "fitted.values"
      | some forecast =>
        match m.numericAt "residuals" with
        | none => LmOutcome.accessError "residuals"
        | some resid =>
          if forecast.length ≠ resid.length then LmOutcome.outOfBoundsRead
          else LmOutcome.table (fitMetrics sqrt log forecast resid) := by
  simp [lmFitMetricsCpp, h]

theorem fitMetrics_names (sqrt log : ℚ → Value) (forecast resid : List Value) :
    (fitMetrics sqrt log forecast resid).map Prod.fst =
      ["MSE", "RMSE", "MAE", "MAPE", "AMAPE", "MedAE", "MSLE", "R2"] := rfl

theorem fitMetrics_MAPE (sqrt log : ℚ → Value) (forecast resid : List Value) :
    (LmOutcome.table (fitMetrics sqrt log forecast resid)).column "MAPE" =
      some (mean (List.zipWith vdiv (resid.map vabs) (List.zipWith vadd forecast resid))) := by
  simp [LmOutcome.column, fitMetrics, List.find?]

theorem abs_ratio_of_pos (f r : Value)
    (h : ∀ p q, f = some p → r = some q → 0 < p + q) :
    vdiv (vabs r) (vadd f r) = vabs (vdiv r (vadd f r)) := by
  cases f with
  | none => cases r <;> rfl
  | some p =>
    cases r with
    | none => rfl
    | some q =>
      have hpos := h p q rfl rfl
      simp only [vdiv, vabs, vadd, Option.some_bind, Option.map_some', if_neg hpos.ne']
      simp only [Option.map_some', abs_div, abs_of_pos hpos]

theorem zipWith_abs_ratio (forecast resid : List Value)
    (h : ∀ p q, (some p, some q) ∈ List.zip forecast resid → 0 < p + q) :
    List.zipWith vdiv (resid.map vabs) (List.zipWith vadd forecast resid) =
      List.zipWith (fun f r => vabs (vdiv r (vadd f r))) forecast resid := by
  induction forecast generalizing resid with
  | nil => cases resid <;> simp
  | cons f ft ih =>
    cases resid with
    | nil => simp
    | cons r rt =>
      simp only [List.map_cons, List.zipWith_cons_cons, List.cons.injEq]
      refine ⟨abs_ratio_of_pos f r ?_, ih rt ?_⟩
      · intro p q hp hq
        subst hp hq
        exact h p q (by simp)
      · intro p q hpq
        exact h p q (by simp [hpq])

/-- When every actual value `fitted_i + resid_i` is positive, the column `MAPE` is
the mean absolute percentage error. -/
theorem MAPE_of_positive_actuals (sqrt log : ℚ → Value) (forecast resid : List Value)
    (h : ∀ p q, (some p, some q) ∈ List.zip forecast resid → 0 < p + q) :
    (LmOutcome.table (fitMetrics sqrt log forecast resid)).column "MAPE" =
      some (meanAbsolutePercentageError forecast resid) := by
  rw [fitMetrics_MAPE, zipWith_abs_ratio forecast resid h]
  rfl

/-! ## Coefficients of variation -/

theorem sum_sq_dev (l : List ℚ) (m : ℚ) :
    (l.map fun v => (v - m) ^ 2).sum =
      (l.map fun v => v * v).sum - 2 * m * l.sum + l.length * m ^ 2 := by
  induction l with
  | nil => simp
  | cons a t ih =>
    simp only [List.map_cons, List.sum_cons, List.length_cons, ih]
    push_cast
    ring

theorem sdsRadicand_eq (col : List ℚ) (hn : 2 ≤ col.length) :
    sdsRadicand col.length col = some (sampleVariance col) := by
  have h2 : (2 : ℚ) ≤ (col.length : ℚ) := by exact_mod_cast hn
  have hn0 : (col.length : ℚ) ≠ 0 := by linarith
  have hn1 : (col.length : ℚ) - 1 ≠ 0 := by linarith
  unfold sdsRadicand colMean sampleVariance
  simp only [foldl_add_eq_sum]
  rw [vdiv_some _ _ hn1, vdiv_some _ _ hn0, vdiv_some _ _ hn0, sum_sq_dev]
  simp only [vsq, vmul, vsub, Option.some_bind, Option.map_some']
  congr 1
  field_simp
  ring

/-! ## The claims about the other snippets -/

theorem myMeanNACpp2Rounded_id (x : List Value) :
    myMeanNACpp2Rounded id x = myMeanNACpp2 x := by
  unfold myMeanNACpp2Rounded myMeanNACpp2
  simp

theorem myMeanNACpp2SugarRounded_id (x : List Value) :
    myMeanNACpp2SugarRounded id id x = myMeanNACpp2Sugar x := by
  rw [myMeanNACpp2Sugar_eq]
  unfold myMeanNACpp2SugarRounded meanFiniteRounded
  simp only [id, foldl_add_eq_sum]
  by_cases hl : (na_omit x).length = 0
  · rw [if_pos hl, hl]
    simp [vdiv]
  · have hq : ((na_omit x).length : ℚ) ≠ 0 := by exact_mod_cast hl
    rw [if_neg hl, vdiv_some _ _ hq]
    have hfold : ∀ (l : List ℚ) (s t : ℚ),
        l.foldl (fun t v => t + (v - s)) t = t + (l.map fun v => v - s).sum := by
      intro l s
      induction l with
      | nil => intro t; simp
      | cons a tl ih => intro t; simp only [List.foldl_cons, ih, List.map_cons, List.sum_cons]; ring
    rw [hfold, sum_map_sub_const]
    congr 1
    field_simp

/-- C11, as stated, fails: on the doubles `c(0.1, 0.2, 0.3)` the loop of
`myMeanNACpp2`, whose additions and division are rounded to double, returns the
double above 0.2, and the two-pass `long double` mean of `myMeanNACpp2Sugar` returns
0.2, be `long double` the 64-bit significand of x87 or a plain double. -/
theorem rounded_means_differ :
    myMeanNACpp2Rounded (roundNearestEven 53) tenths =
        some (roundNearestEven 53 (1 / 5) + 1 / 2 ^ 55) ∧
      myMeanNACpp2SugarRounded (roundNearestEven 53) (roundNearestEven 64) tenths =
        some (roundNearestEven 53 (1 / 5)) ∧
      myMeanNACpp2SugarRounded (roundNearestEven 53) (roundNearestEven 53) tenths =
        some (roundNearestEven 53 (1 / 5)) ∧
      myMeanNACpp2Rounded (roundNearestEven 53) tenths ≠
        myMeanNACpp2SugarRounded (roundNearestEven 53) (roundNearestEven 64) tenths := by
  decide!

/-- C11, amended. In exact arithmetic, for every numeric vector `x`, with or without
missing entries, the loop `myMeanNACpp2(x)` returns the same value as the sugar
version `myMeanNACpp2Sugar(x)`, which is the mean of `x` with the missing entries
omitted: the sum of the non-missing entries divided by their number (not a number
when there is none). -/
theorem myMeanNACpp2_eq_sugar (x : List Value) :
    myMeanNACpp2 x = myMeanNACpp2Sugar x ∧
      myMeanNACpp2Sugar x = vdiv (some (na_omit x).sum) (some ((na_omit x).length : ℚ)) :=
  ⟨(myMeanNACpp2_eq x).trans (myMeanNACpp2Sugar_eq x).symm, myMeanNACpp2Sugar_eq x⟩

/-- Instance of `myMeanNACpp2_eq_sugar` at the vector of the R block: ten entries,
the third and the fifth missing, mean 53/16 of the eight others. -/
theorem myMeanNACpp2_eq_sugar_witness :
    x_val.length = 10 ∧ x_val[2]? = some none ∧ x_val[4]? = some none ∧
      myMeanNACpp2Sugar x_val = some (53 / 16) ∧
      myMeanNACpp2 x_val = myMeanNACpp2Sugar x_val :=
  ⟨by decide, by decide, by decide, by decide!, (myMeanNACpp2_eq_sugar x_val).1⟩

/-- C12, as stated, fails: a list of class `lm` without an element called
`fitted.values` passes the class test, and the call stops in the access
`model_lm["fitted.values"]` instead of returning a table. -/
theorem lm_class_without_fitted_values :
    hollowModel.inherits "lm" = true ∧
      lmFitMetricsCpp exactSqrt exactLog hollowModel = LmOutcome.accessError "fitted.values" ∧
      ∀ cols, lmFitMetricsCpp exactSqrt exactLog hollowModel ≠ LmOutcome.table cols := by
  have h : lmFitMetricsCpp exactSqrt exactLog hollowModel =
      LmOutcome.accessError "fitted.values" := by decide!
  refine ⟨by decide, h, ?_⟩
  intro cols hc
  rw [h] at hc
  cases hc

/-- C12, amended. `lmFitMetricsCpp` stops with the error "The argument must be a
lm() model result." if and only if its argument does not inherit from class `lm`;
for an argument that inherits from `lm` and has numeric elements `fitted.values` and
`residuals` of one length it returns a one-row table with exactly the columns MSE,
RMSE, MAE, MAPE, AMAPE, MedAE, MSLE, R2 in that order. -/
theorem lm_guard_and_columns (sqrt log : ℚ → Value) (m : RList) :
    (lmFitMetricsCpp sqrt log m = LmOutcome.stop "The argument must be a lm() model result." ↔
      m.inherits "lm" = false) ∧
    ∀ forecast resid, m.inherits "lm" = true → m.numericAt "fitted.values" = some forecast →
      m.numericAt "residuals" = some resid → forecast.length = resid.length →
      ∃ cols, lmFitMetricsCpp sqrt log m = LmOutcome.table cols ∧
        cols.map Prod.fst = ["MSE", "RMSE", "MAE", "MAPE", "AMAPE", "MedAE", "MSLE", "R2"] := by
  refine ⟨⟨?_, lmFitMetricsCpp_of_not_inherits sqrt log m⟩, ?_⟩
  · intro h
    by_contra hne
    have hin : m.inherits "lm" = true := by
      cases hb : m.inherits "lm"
      · exact absurd hb hne
      · rfl
    rw [lmFitMetricsCpp_of_inherits sqrt log m hin] at h
    split at h
    · cases h
    · split at h
      · cases h
      · split_ifs at h
  · intro forecast resid hin hf hr hlen
    refine ⟨fitMetrics sqrt log forecast resid, ?_, fitMetrics_names sqrt log forecast resid⟩
    rw [lmFitMetricsCpp_of_inherits sqrt log m hin, hf, hr]
    simp [hlen]

/-- Instance of `lm_guard_and_columns` at a model with two observations, and at a
list that is not of class `lm`. -/
theorem lm_guard_and_columns_witness :
    (∃ cols, lmFitMetricsCpp exactSqrt exactLog smallModel = LmOutcome.table cols ∧
        cols.map Prod.fst = ["MSE", "RMSE", "MAE", "MAPE", "AMAPE", "MedAE", "MSLE", "R2"]) ∧
      lmFitMetricsCpp exactSqrt exactLog plainList =
        LmOutcome.stop "The argument must be a lm() model result." :=
  ⟨(lm_guard_and_columns exactSqrt exactLog smallModel).2 [some 0, some 3] [some 1, some (-1)]
      (by decide) (by decide) (by decide) (by decide),
    (lm_guard_and_columns exactSqrt exactLog plainList).1.mpr (by decide)⟩

/-- C13. The column MAPE is meant to be the mean absolute percentage error, the
mean of `|resid_i / real_i|`, which is never negative. The code divides `|resid_i|`
by `real_i` itself: for a model with fitted value -2 and residual 1 the actual value
is -1, not zero, and the returned MAPE is -1, while the mean absolute percentage
error is 1. -/
theorem MAPE_negative :
    (lmFitMetricsCpp exactSqrt exactLog negativeModel).column "MAPE" = some (some (-1)) ∧
      meanAbsolutePercentageError [some (-2)] [some 1] = some 1 ∧
      List.zipWith vadd [some (-2)] [some 1] = [some (-1)] := by
  decide!

/-- C15. For every column of a matrix with `n ≥ 2` rows, the value
`n/(n-1) * (mean(x^2) - mean(x)^2)` whose square root is the entry of `sds` computed
by `colCVsCpp_list` and by `colCVsCpp_df2` equals the unbiased sample variance of
the column; so the square of that entry, for an exact square root, is the unbiased
sample variance. -/
theorem sds_squared_is_sample_variance (sqrt : ℚ → Value) (x : NumericMatrix) (j : Nat)
    (col : List ℚ) (hn : 2 ≤ x.nrow) (hcol : x.cols[j]? = some col) :
    sdsRadicand x.nrow col = some (sampleVariance col) ∧
      (colCVsCpp_list sqrt x).sds[j]? = some (sqrt (sampleVariance col)) ∧
      (colCVsCpp_df2 sqrt x).sds[j]? = some (sqrt (sampleVariance col)) ∧
      ((∀ v s, sqrt v = some s → s * s = v) →
        ∀ s, (colCVsCpp_list sqrt x).sds[j]? = some (some s) → s * s = sampleVariance col) := by
  have hlen : col.length = x.nrow := x.wf col (List.getElem?_mem hcol)
  have hrad : sdsRadicand x.nrow col = some (sampleVariance col) := by
    rw [← hlen]
    exact sdsRadicand_eq col (by omega)
  have hsds : (x.cols.map (sdsEntry sqrt x.nrow))[j]? = some (sqrt (sampleVariance col)) := by
    rw [List.getElem?_map, hcol]
    simp [sdsEntry, hrad]
  refine ⟨hrad, hsds, hsds, ?_⟩
  intro hsqrt s hs
  have h2 : (colCVsCpp_list sqrt x).sds[j]? = some (sqrt (sampleVariance col)) := hsds
  rw [h2] at hs
  exact hsqrt _ _ (Option.some.inj hs)

/-- Instance of `sds_squared_is_sample_variance` at the first column, `(0, 1, 2)`,
of a matrix with three rows: the entry of `sds` is 1 and the sample variance is 1. -/
theorem sds_squared_is_sample_variance_witness :
    2 ≤ smallMatrix.nrow ∧ smallMatrix.cols[0]? = some [0, 1, 2] ∧
      sampleVariance [0, 1, 2] = 1 ∧
      (colCVsCpp_list exactSqrt smallMatrix).sds[0]? = some (some 1) ∧
      sdsRadicand smallMatrix.nrow [0, 1, 2] = some (sampleVariance [0, 1, 2]) :=
  ⟨by decide, by decide, by decide!, by decide!,
    (sds_squared_is_sample_variance exactSqrt smallMatrix 0 [0, 1, 2] (by decide)
      (by decide)).1⟩

/-- C16. For every non-empty numeric vector `x` with no missing entries, the six
mean implementations return `sum(x)/length(x)`; and on a vector with at least one
non-missing entry, `myMeanCppIter3accum`, `myMeanCppIter4inner` and `myMeanNACpp2`
agree with each other. -/
theorem mean_implementations_agree (x : List Value) :
    (x ≠ [] → (∀ v ∈ x, v ≠ none) →
      myMeanCppIterator x = some ((na_omit x).sum / (x.length : ℚ)) ∧
      myMeanCppIterator2 x = some ((na_omit x).sum / (x.length : ℚ)) ∧
      myMeanCppRangeBasedLoop x = some ((na_omit x).sum / (x.length : ℚ)) ∧
      myMeanCppIter3accum x = some ((na_omit x).sum / (x.length : ℚ)) ∧
      myMeanCppIter4inner x = some ((na_omit x).sum / (x.length : ℚ)) ∧
      myMeanNACpp2 x = some ((na_omit x).sum / (x.length : ℚ))) ∧
    (na_omit x ≠ [] →
      myMeanCppIter3accum x = myMeanCppIter4inner x ∧
      myMeanCppIter4inner x = myMeanNACpp2 x ∧
      myMeanNACpp2 x = some ((na_omit x).sum / ((na_omit x).length : ℚ))) := by
  constructor
  · intro hne hna
    have hx := na_omit_of_forall_some x hna
    have hnn : na_omit x ≠ [] := by
      intro h
      rw [h] at hx
      exact hne (List.length_eq_zero.mp hx.1.symm)
    have hlen : (x.length : ℚ) ≠ 0 := by
      have := List.length_pos.mpr hne
      exact_mod_cast this.ne'
    have hv : vdiv (some (na_omit x).sum) (some ((na_omit x).length : ℚ)) =
        some ((na_omit x).sum / (x.length : ℚ)) := by
      rw [hx.1, vdiv_some _ _ hlen]
    refine ⟨plain_loop_mean x hne hna, ?_, plain_loop_mean x hne hna, ?_, ?_, ?_⟩
    · unfold myMeanCppIterator2
      simp only [List.take_length]
      exact plain_loop_mean x hne hna
    · rw [myMeanCppIter3accum_eq, hv]
    · rw [myMeanCppIter4inner_eq x hnn, hv]
    · rw [myMeanNACpp2_eq, hv]
  · intro hnn
    have hlen : ((na_omit x).length : ℚ) ≠ 0 := by
      have := List.length_pos.mpr hnn
      exact_mod_cast this.ne'
    refine ⟨?_, ?_, ?_⟩
    · rw [myMeanCppIter3accum_eq, myMeanCppIter4inner_eq x hnn]
    · rw [myMeanCppIter4inner_eq x hnn, myMeanNACpp2_eq]
    · rw [myMeanNACpp2_eq, vdiv_some _ _ hlen]

/-- Instance of `mean_implementations_agree` at the vector `(1, 2, 6)`, of mean 3,
and at the vector of the R block of `myMeanNACpp2.cpp`, with two missing entries. -/
theorem mean_implementations_agree_witness :
    ([some 1, some 2, some 6] : List Value) ≠ [] ∧
      (∀ v ∈ ([some 1, some 2, some 6] : List Value), v ≠ none) ∧
      myMeanCppIterator [some 1, some 2, some 6] = some 3 ∧
      myMeanCppIter4inner [some 1, some 2, some 6] = some 3 ∧
      na_omit x_val ≠ [] ∧
      (myMeanCppIter3accum x_val = myMeanCppIter4inner x_val ∧
        myMeanCppIter4inner x_val = myMeanNACpp2 x_val ∧
        myMeanNACpp2 x_val = some ((na_omit x_val).sum / ((na_omit x_val).length : ℚ))) ∧
      (myMeanCppIterator [some 1, some 2, some 6] =
          some ((na_omit [some 1, some 2, some 6]).sum /
            (([some 1, some 2, some 6] : List Value).length : ℚ))) :=
  ⟨by simp, by simp, by decide!, by decide!, by decide,
    (mean_implementations_agree x_val).2 (by decide),
    ((mean_implementations_agree [some 1, some 2, some 6]).1 (by simp) (by simp)).1⟩

end RcppSnippets
